import Mathlib

/-!
Verification of the station-reachability engine of the Eki-kensaku repository.

The TypeScript source is shallowly embedded: JavaScript `Map` objects become
insertion-ordered association lists (`SMap`), JS objects used as string-keyed
records become the same, the binary min-heap of `search.ts` is embedded as a
list with the literal bubble-up / bubble-down routines, and the Dijkstra loop
of `searchReachableStations` is embedded with an explicit fuel that is proved
sufficient.  All times are natural numbers (minutes), matching the spec's
"all times are non-negative integers".
-/

namespace EkiKensaku

/-! ## Insertion-ordered string-keyed maps (embedding of JS `Map` / objects)

JS `Map.get` finds the entry for a key, `Map.set` replaces the value of an
existing key in place (keeping its insertion position) or appends a fresh key
at the end, and iteration is in insertion order.  JS objects used as
string-keyed records behave the same way for the operations the source uses.
-/

abbrev SMap (α : Type) : Type := List (String × α)

def smapFind? {α : Type} : SMap α → String → Option α
  | [], _ => none
  | (k, v) :: rest, key => if k = key then some v else smapFind? rest key

def smapSet {α : Type} : SMap α → String → α → SMap α
  | [], key, val => [(key, val)]
  | (k, v) :: rest, key, val =>
    if k = key then (k, val) :: rest else (k, v) :: smapSet rest key val

def smapKeys {α : Type} (m : SMap α) : List String := m.map Prod.fst

/-! ## Data model (src/types/station.ts as used by the core) -/

structure LineMembership where
  code : String
  name : String
  company : String
deriving DecidableEq, Repr

/-- A station record.  The geographic coordinate only feeds the floating-point
geometric travel-time estimate of one `buildGraph` variant, which is embedded
parametrically; coordinates are carried as integers here. -/
structure Station where
  code : String
  name : String
  lat : Int
  lon : Int
  lines : List LineMembership
deriving DecidableEq, Repr

structure GraphEdge where
  station : String
  time : Nat
  line : String
deriving DecidableEq, Repr

abbrev StationGraph : Type := SMap (List GraphEdge)

structure ConnectionWithTime where
  fromCode : String
  toCode : String
  line : String
  time : Nat
deriving DecidableEq, Repr

structure Connection where
  fromCode : String
  toCode : String
  line : String
deriving DecidableEq, Repr

structure RouteStep where
  fromCode : String
  toCode : String
  fromName : String
  toName : String
  line : String
  time : Nat
deriving DecidableEq, Repr

structure SearchResult where
  station : Station
  totalTime : Nat
  timesFromOrigins : SMap Nat
  routesFromOrigins : Option (SMap (List RouteStep))
deriving DecidableEq, Repr

inductive SearchMode
  | or
  | and
deriving DecidableEq, Repr

/-! ## Transfer Cost Estimator (src/lib/stations/transfer.ts) -/

/-- `estimateTransferTime` from the source: the interchange-time estimate is a
step function of the number of lines serving the station. -/
def estimateTransferTime (station : Station) : Nat :=
  let lineCount := station.lines.length
  if lineCount ≤ 2 then 3
  else if lineCount ≤ 4 then 5
  else if lineCount ≤ 6 then 7
  else 10

/-- The adjacency list of a station code (`graph.get(c) || []`). -/
def edgesAt (graph : StationGraph) (c : String) : List GraphEdge :=
  (smapFind? graph c).getD []

/-- Graph symmetry: every directed edge has a reversed companion on the same
line with equal weight. -/
def SymGraph (graph : StationGraph) : Prop :=
  ∀ a b l w, (⟨b, w, l⟩ : GraphEdge) ∈ edgesAt graph a →
    (⟨a, w, l⟩ : GraphEdge) ∈ edgesAt graph b

/-! ## Graph Builder

`buildGraph` exists in two module variants.  One consumes pre-timed
connections (`ConnectionWithTime`, "YAMLから生成された所要時間を使用"); the
other derives the travel time geometrically from the two stations' coordinates
with a haversine formula.  The geometric computation is floating point, so it
is embedded as a parameter `calcTime : Station → Station → Nat`; everything
else in that variant is embedded literally.  Both modules hold the built graph
in a module-level mutable cache (`graphCache`); the cache is embedded as
explicit state threaded through `buildGraphCached` / `buildGraphEstimatedCached`.
-/

def stationIndex (stations : List Station) : SMap Station :=
  stations.foldl (fun m s => smapSet m s.code s) []

/-- One direction of a connection insertion: read the source station's edge
list (`graph.get(src) || []`), skip if a (target, line) duplicate is present,
otherwise append the new edge (`edges.push`, `graph.set`). -/
def insertDirectedEdge (graph : StationGraph) (src tgt line : String)
    (travelTime : Nat) : StationGraph :=
  if (edgesAt graph src).any (fun e => e.station = tgt ∧ e.line = line) then graph
  else smapSet graph src (edgesAt graph src ++ [⟨tgt, travelTime, line⟩])

/-- Insert the two directed edges (`conn.from → conn.to` and back) for one
connection.  The target-side edge list is read after the source-side
insertion, as in the source (the JS arrays are aliased), which matters for
self-loops. -/
def addConnectionEdges (graph : StationGraph) (fromCode toCode line : String)
    (travelTime : Nat) : StationGraph :=
  insertDirectedEdge (insertDirectedEdge graph fromCode toCode line travelTime)
    toCode fromCode line travelTime

/-- `buildGraph` over pre-timed connections: index the stations, give every
station an empty edge list, then insert each connection whose two endpoints
resolve in the index, bidirectionally, using the supplied travel time. -/
def buildGraph (stations : List Station) (connections : List ConnectionWithTime) :
    StationGraph :=
  let stationMap := stationIndex stations
  let graph0 : StationGraph := stations.foldl (fun g s => smapSet g s.code []) []
  connections.foldl
    (fun g conn =>
      match smapFind? stationMap conn.fromCode, smapFind? stationMap conn.toCode with
      | some _, some _ => addConnectionEdges g conn.fromCode conn.toCode conn.line conn.time
      | _, _ => g)
    graph0

/-- The geometric-estimate `buildGraph` variant: identical edge-insertion
logic, but the travel time of a connection is computed from the two resolved
stations by `calcTime` (the haversine-distance / average-speed / clamp
computation of the source, abstracted because it is floating point). -/
def buildGraphEstimated (calcTime : Station → Station → Nat)
    (stations : List Station) (connections : List Connection) : StationGraph :=
  let stationMap := stationIndex stations
  let graph0 : StationGraph := stations.foldl (fun g s => smapSet g s.code []) []
  connections.foldl
    (fun g conn =>
      match smapFind? stationMap conn.fromCode, smapFind? stationMap conn.toCode with
      | some s1, some s2 => addConnectionEdges g conn.fromCode conn.toCode conn.line (calcTime s1 s2)
      | _, _ => g)
    graph0

/-- The module-level cache behaviour of `buildGraph`: `if (graphCache) return
graphCache;` on entry, `graphCache = graph` before returning.  The mutable
module state is threaded explicitly: the second component is the cache after
the call. -/
def buildGraphCached (cache : Option StationGraph) (stations : List Station)
    (connections : List ConnectionWithTime) : StationGraph × Option StationGraph :=
  match cache with
  | some g => (g, some g)
  | none =>
    let g := buildGraph stations connections
    (g, some g)

/-! ## Search-state keys

The search keys its tables by the string `` `${stationCode}_${lineCode}` ``,
where a `null` line code renders as the string `"null"`.  Route reconstruction
recovers the station code of a state as `state.split('_')[0]`. -/

def lineKeyStr : Option String → String
  | none => "null"
  | some l => l

def mkStateKey (stationCode : String) (lineCode : Option String) : String :=
  stationCode ++ "_" ++ lineKeyStr lineCode

/-- The characters before the first `'_'` of a list. -/
def takeUntilUnderscore : List Char → List Char
  | [] => []
  | c :: cs => if c = '_' then [] else c :: takeUntilUnderscore cs

/-- `state.split('_')[0]`: the segment of the state string before its first
underscore (the whole string when no underscore occurs). -/
def splitHead (s : String) : String :=
  ⟨takeUntilUnderscore s.data⟩

/-- A code is underscore-free. -/
def noUnderscore (s : String) : Prop := '_' ∉ s.data

instance (s : String) : Decidable (noUnderscore s) := by
  unfold noUnderscore; infer_instance

/-! ## The priority queue of search.ts

A binary min-heap stored in an array, with `bubbleUp` / `bubbleDown` embedded
literally (index arithmetic and swaps).  The loops are embedded with explicit
recursion depth: `bubbleUp` strictly decreases its index each step, so a depth
of `index + 1` can never be exhausted; `bubbleDown` strictly increases its
index while keeping it below the (fixed) length, so a depth of `length + 1`
can never be exhausted.  The correctness arguments below only use that the
heap operations permute entries. -/

structure QueueEntry where
  stationCode : String
  lineCode : Option String
  totalTime : Nat
deriving DecidableEq, Repr

instance : Inhabited QueueEntry := ⟨⟨"", none, 0⟩⟩

def heapGet (h : List QueueEntry) (i : Nat) : QueueEntry := h.getD i default

/-- The destructuring swap `[heap[i], heap[j]] = [heap[j], heap[i]]`. -/
def heapSwap (h : List QueueEntry) (i j : Nat) : List QueueEntry :=
  (h.set i (heapGet h j)).set j (heapGet h i)

def bubbleUp : Nat → List QueueEntry → Nat → List QueueEntry
  | 0, h, _ => h
  | _ + 1, h, 0 => h
  | depth + 1, h, i + 1 =>
    let parent := i / 2
    if (heapGet h parent).totalTime ≤ (heapGet h (i + 1)).totalTime then h
    else bubbleUp depth (heapSwap h parent (i + 1)) parent

def bubbleDown : Nat → List QueueEntry → Nat → List QueueEntry
  | 0, h, _ => h
  | depth + 1, h, i =>
    let length := h.length
    let leftChild := 2 * i + 1
    let rightChild := 2 * i + 2
    let s₁ :=
      if leftChild < length ∧
          (heapGet h leftChild).totalTime < (heapGet h i).totalTime then leftChild
      else i
    let s₂ :=
      if rightChild < length ∧
          (heapGet h rightChild).totalTime < (heapGet h s₁).totalTime then rightChild
      else s₁
    if s₂ = i then h
    else bubbleDown depth (heapSwap h i s₂) s₂

/-- `push`: append, then bubble up from the last index. -/
def heapPush (h : List QueueEntry) (e : QueueEntry) : List QueueEntry :=
  bubbleUp (h.length + 1) (h ++ [e]) h.length

/-- `pop`: return the root; move the last element to the root and bubble it
down (the singleton case just empties the heap). -/
def heapPop : List QueueEntry → Option QueueEntry × List QueueEntry
  | [] => (none, [])
  | [x] => (some x, [])
  | x :: y :: ys =>
    let rest := List.getLastD ys y :: (y :: ys).dropLast
    (some x, bubbleDown (rest.length + 1) rest 0)

/-! ## Reachability Search Engine (src/lib/stations/search.ts) -/

structure PathInfo where
  prevStation : Option String
  prevLine : Option String
  lineCode : Option String
  time : Nat
deriving DecidableEq, Repr

structure SearchState where
  stateDistances : SMap Nat
  stationDistances : SMap Nat
  pathMap : SMap PathInfo
  bestStateForStation : SMap String
  queue : List QueueEntry
deriving Repr

/-- The per-edge segment time of one relaxation: the edge weight, plus the
transfer estimate at the current station when the relaxation changes line
(`current.lineCode !== null && current.lineCode !== edge.line`). -/
def segmentTime (currentLine : Option String) (currentStation : Station)
    (e : GraphEdge) : Nat :=
  if currentLine ≠ none ∧ currentLine ≠ some e.line then
    e.time + estimateTransferTime currentStation
  else e.time

/-- `newTime < stateDistances.get(newState)`, treating a missing entry as
improvable (`existingStateTime === undefined`). -/
def stateImproved (st : SearchState) (newState : String) (newTime : Nat) : Bool :=
  match smapFind? st.stateDistances newState with
  | some t => decide (newTime < t)
  | none => true

/-- Station-level improvement check (`existingStationTime === undefined ||
newTime < existingStationTime`). -/
def stationImproved (st : SearchState) (code : String) (newTime : Nat) : Bool :=
  match smapFind? st.stationDistances code with
  | some t => decide (newTime < t)
  | none => true

/-- One edge relaxation of the Dijkstra loop body.  The source's locals
`segmentTime` (the edge weight plus any transfer penalty) and `newTime`
(`current.totalTime + segmentTime`) are written out via the named helpers. -/
def relaxEdge (maxTime : Nat) (cur : QueueEntry) (currentStation : Station)
    (st : SearchState) (e : GraphEdge) : SearchState :=
  if cur.totalTime + segmentTime cur.lineCode currentStation e > maxTime then st
  else if stateImproved st (mkStateKey e.station (some e.line))
      (cur.totalTime + segmentTime cur.lineCode currentStation e) then
    { stateDistances := smapSet st.stateDistances (mkStateKey e.station (some e.line))
        (cur.totalTime + segmentTime cur.lineCode currentStation e)
      pathMap := smapSet st.pathMap (mkStateKey e.station (some e.line))
        ⟨some cur.stationCode, cur.lineCode, some e.line,
          segmentTime cur.lineCode currentStation e⟩
      stationDistances :=
        if stationImproved st e.station
            (cur.totalTime + segmentTime cur.lineCode currentStation e) then
          smapSet st.stationDistances e.station
            (cur.totalTime + segmentTime cur.lineCode currentStation e)
        else st.stationDistances
      bestStateForStation :=
        if stationImproved st e.station
            (cur.totalTime + segmentTime cur.lineCode currentStation e) then
          smapSet st.bestStateForStation e.station (mkStateKey e.station (some e.line))
        else st.bestStateForStation
      queue := heapPush st.queue
        ⟨e.station, some e.line,
          cur.totalTime + segmentTime cur.lineCode currentStation e⟩ }
  else st

/-- The stale-entry check: a popped entry is skipped when a strictly better
total for its exact state has already been recorded (`bestTime !== undefined
&& current.totalTime > bestTime`). -/
def staleEntry (st : SearchState) (cur : QueueEntry) : Bool :=
  match smapFind? st.stateDistances (mkStateKey cur.stationCode cur.lineCode) with
  | some best => decide (cur.totalTime > best)
  | none => false

/-- One iteration of the `while (!queue.isEmpty())` loop: pop, skip stale or
over-budget entries and unknown stations, otherwise relax every outgoing
edge. -/
def searchStep (graph : StationGraph) (stationMap : SMap Station) (maxTime : Nat)
    (st : SearchState) : SearchState :=
  match heapPop st.queue with
  | (none, _) => st
  | (some cur, rest) =>
    if staleEntry { st with queue := rest } cur then { st with queue := rest }
    else if cur.totalTime > maxTime then { st with queue := rest }
    else
      match smapFind? stationMap cur.stationCode with
      | none => { st with queue := rest }
      | some currentStation =>
        ((smapFind? graph cur.stationCode).getD []).foldl
          (relaxEdge maxTime cur currentStation) { st with queue := rest }

/-- The search loop, with explicit fuel.  `searchFuel` below is proved
sufficient: the loop always reaches an empty queue before the fuel runs
out, so this equals the unbounded loop of the source. -/
def searchLoop (graph : StationGraph) (stationMap : SMap Station) (maxTime : Nat) :
    Nat → SearchState → SearchState
  | 0, st => st
  | fuel + 1, st =>
    if st.queue = [] then st
    else searchLoop graph stationMap maxTime fuel (searchStep graph stationMap maxTime st)

/-- Initial search state: the origin in the "`not riding any line`" state at
distance 0, queued. -/
def initialSearchState (originCode : String) : SearchState :=
  let initialState := mkStateKey originCode none
  { stateDistances := [(initialState, 0)]
    stationDistances := [(originCode, 0)]
    pathMap := [(initialState, ⟨none, none, none, 0⟩)]
    bestStateForStation := [(originCode, initialState)]
    queue := [⟨originCode, none, 0⟩] }

/-- Total number of graph edges: an upper bound (with the initial state) on
the number of distinct state keys the search can ever store. -/
def totalEdgeCount (graph : StationGraph) : Nat :=
  (graph.map (fun p => p.2.length)).sum

/-- Sufficient fuel for the search loop: every iteration pops one entry and
every push is paired with a strict decrease of a bounded potential, so the
number of iterations is at most `(maxTime + 1) * totalEdgeCount + 1`. -/
def searchFuel (graph : StationGraph) (maxTime : Nat) : Nat :=
  (maxTime + 1) * totalEdgeCount graph + 2

/-- Line-code → display-name helper: scan the station map in insertion order
for the first station carrying the line, falling back to the code itself. -/
def getLineName (stationMap : SMap Station) (lineCode : String) : String :=
  match stationMap.findSome?
      (fun p => p.2.lines.findSome?
        (fun l => if l.code = lineCode then some l.name else none)) with
  | some n => n
  | none => lineCode

/-- The backward walk of `reconstructRoute`, embedded with explicit depth.
Each visited state follows the predecessor pointer of the previous one; under
the invariants of the search the pointer chains are cycle-free, so a depth of
`pathMap.length + 1` can never be exhausted.  A step is prepended (`unshift`)
only when both stations resolve and the step's line code is truthy (neither
`null` nor the empty string). -/
def routeWalk (stationMap : SMap Station) (pathMap : SMap PathInfo)
    (lineName : String → String) : Nat → String → List RouteStep → List RouteStep
  | 0, _, route => route
  | depth + 1, currentState, route =>
    match smapFind? pathMap currentState with
    | none => route
    | some info =>
      match info.prevStation with
      | none => route
      | some prev =>
        let toStationCode := splitHead currentState
        let route' :=
          match smapFind? stationMap prev, smapFind? stationMap toStationCode,
              info.lineCode with
          | some fromStation, some toStation, some lc =>
            if lc = "" then route
            else
              ⟨prev, toStationCode, fromStation.name, toStation.name,
                lineName lc, info.time⟩ :: route
          | _, _, _ => route
        routeWalk stationMap pathMap lineName depth (mkStateKey prev info.prevLine) route'

/-- `reconstructRoute`: walk the predecessor chain from the best state
recorded for the station. -/
def reconstructRoute (stationMap : SMap Station) (st : SearchState)
    (stationCode : String) : List RouteStep :=
  match smapFind? st.bestStateForStation stationCode with
  | none => []
  | some bestState =>
    routeWalk stationMap st.pathMap (getLineName stationMap)
      (st.pathMap.length + 1) bestState []

/-- Stable insertion of a result after all entries with a total time less
than or equal to its own. -/
def insertSortedByTime (r : SearchResult) : List SearchResult → List SearchResult
  | [] => [r]
  | x :: xs =>
    if x.totalTime ≤ r.totalTime then x :: insertSortedByTime r xs
    else r :: x :: xs

/-- The stable ascending-by-total-time sort
(`results.sort((a, b) => a.totalTime - b.totalTime)`). -/
def sortResultsByTime (l : List SearchResult) : List SearchResult :=
  l.foldl (fun acc r => insertSortedByTime r acc) []

/-- `searchReachableStations`: run the transfer-aware Dijkstra loop, then for
every entry of `stationDistances` whose station resolves, produce a
`SearchResult` (single-entry time map, and a single-entry route map when the
reconstructed route is non-empty), sorted ascending by total time. -/
def searchReachableStations (graph : StationGraph) (stationMap : SMap Station)
    (originCode : String) (maxTime : Nat) : List SearchResult :=
  let st := searchLoop graph stationMap maxTime (searchFuel graph maxTime)
    (initialSearchState originCode)
  let results := st.stationDistances.filterMap
    (fun p =>
      match smapFind? stationMap p.1 with
      | some station =>
        let route := reconstructRoute stationMap st p.1
        some { station := station
               totalTime := p.2
               timesFromOrigins := [(originCode, p.2)]
               routesFromOrigins :=
                 if route.length > 0 then some [(originCode, route)] else none }
      | none => none)
  sortResultsByTime results

/-! ## Multi-Origin Aggregator and Grouped Query Composer
(the routes-aware module holding `searchMultipleOriginsParallel` and
`searchWithGroups`).  `Promise.all` over per-origin searches is pure
sequencing of deterministic computations. -/

def maxValues (l : List Nat) : Nat := l.foldl Nat.max 0

/-- Update an existing merged entry with one more origin's result: record
the origin's time (`existing.timesFromOrigins[originCode] = ...`), merge the
origin's route map over the existing one (object spread), and lower the
reported total time when the new result is faster. -/
def mergeExisting (existing : SearchResult) (originCode : String)
    (result : SearchResult) : SearchResult :=
  let existing₁ := { existing with
    timesFromOrigins := smapSet existing.timesFromOrigins originCode result.totalTime }
  let existing₂ :=
    match result.routesFromOrigins with
    | some routes =>
      let mergedRoutes :=
        routes.foldl (fun m p => smapSet m p.1 p.2) (existing₁.routesFromOrigins.getD [])
      { existing₁ with routesFromOrigins := some mergedRoutes }
    | none => existing₁
  if result.totalTime < existing₂.totalTime then
    { existing₂ with totalTime := result.totalTime }
  else existing₂

/-- Merge one per-origin result into the accumulated per-station map
(`mergedResults`). -/
def mergeOriginResult (merged : SMap SearchResult) (originCode : String)
    (result : SearchResult) : SMap SearchResult :=
  match smapFind? merged result.station.code with
  | some existing =>
    smapSet merged result.station.code (mergeExisting existing originCode result)
  | none =>
    smapSet merged result.station.code
      { station := result.station
        totalTime := result.totalTime
        timesFromOrigins := [(originCode, result.totalTime)]
        routesFromOrigins := result.routesFromOrigins }

/-- `searchMultipleOriginsParallel`: search once per origin, merge per
station, apply the mode filter (`and`: every origin present, total time
becomes the maximum of the per-origin times; `or`: keep everything), remove
the origin stations themselves, and sort. -/
def searchMultipleOriginsParallel (graph : StationGraph) (stationMap : SMap Station)
    (origins : List String) (maxTime : Nat) (mode : SearchMode) : List SearchResult :=
  if origins = [] then []
  else
    let allResults := origins.map
      (fun o => searchReachableStations graph stationMap o maxTime)
    let merged := (origins.zip allResults).foldl
      (fun m p => p.2.foldl (fun m r => mergeOriginResult m p.1 r) m)
      ([] : SMap SearchResult)
    let values : List SearchResult := merged.map Prod.snd
    let filtered : List SearchResult :=
      match mode with
      | .and =>
        (values.filter
            (fun r => origins.all (fun o => (smapFind? r.timesFromOrigins o).isSome))).map
          (fun r => { r with totalTime := maxValues (r.timesFromOrigins.map Prod.snd) })
      | .or => values
    let noOrigins := filtered.filter (fun r => !(origins.contains r.station.code))
    sortResultsByTime noOrigins

structure OriginGroup where
  origins : List String
  timeMinutes : Nat
deriving DecidableEq, Repr

/-- `searchWithGroups`: OR inside each group, AND across groups (intersection
of station-code sets, merged time/route maps, maximum per-group total time),
then all groups' origins are excluded and the result sorted. -/
def searchWithGroups (graph : StationGraph) (stationMap : SMap Station)
    (groups : List OriginGroup) : List SearchResult :=
  if groups = [] then []
  else
    let groupResults := groups.map
      (fun g => searchMultipleOriginsParallel graph stationMap g.origins g.timeMinutes .or)
    match groupResults with
    | [] => []
    | [single] => single
    | base :: restGroups =>
      let baseCodes := (base.map (fun r => r.station.code)).eraseDups
      let commonCodes := restGroups.foldl
        (fun common results =>
          let groupCodes := (results.map (fun r => r.station.code)).eraseDups
          common.filter (fun c => groupCodes.contains c))
        baseCodes
      let allGroupResults := base :: restGroups
      let mergedResults := commonCodes.filterMap
        (fun stationCode =>
          let resultsForStation := allGroupResults.filterMap
            (fun results => results.find? (fun r => r.station.code == stationCode))
          if resultsForStation.length = allGroupResults.length then
            match resultsForStation with
            | [] => none
            | first :: _ =>
              let mergedTimes := resultsForStation.foldl
                (fun m r => r.timesFromOrigins.foldl (fun m p => smapSet m p.1 p.2) m) []
              let mergedRoutes := resultsForStation.foldl
                (fun m r =>
                  match r.routesFromOrigins with
                  | some routes => routes.foldl (fun m p => smapSet m p.1 p.2) m
                  | none => m) []
              some { station := first.station
                     totalTime := maxValues (resultsForStation.map (fun r => r.totalTime))
                     timesFromOrigins := mergedTimes
                     routesFromOrigins :=
                       if mergedRoutes.length > 0 then some mergedRoutes else none }
          else none)
      let allOrigins := (groups.map (fun g => g.origins)).flatten
      let filteredResults := mergedResults.filter
        (fun r => !(allOrigins.contains r.station.code))
      sortResultsByTime filteredResults

/-! ## Specification apparatus for the search engine

The following definitions are verification-side specifications (not source
code): well-formedness of inputs under which the string state keys are
injective, genuine walks through the graph with the transfer-aware cost, the
predecessor-chain predicate used to reason about route reconstruction, and
the loop invariant with its termination potential. -/

/-- A line code (or the no-line sentinel) that does not clash with the
string rendering `"null"` of the sentinel. -/
def wfLineOpt (l : Option String) : Prop := ∀ s, l = some s → s ≠ "null"

/-- Well-formed graph data: every edge's target code is underscore-free and
its line code is neither the sentinel string `"null"` nor empty. -/
def GoodGraph (graph : StationGraph) : Prop :=
  ∀ p ∈ graph, ∀ e ∈ p.2, noUnderscore e.station ∧ e.line ≠ "null" ∧ e.line ≠ ""

instance (graph : StationGraph) : Decidable (GoodGraph graph) := by
  unfold GoodGraph
  infer_instance

/-- Pointwise decrease of a distance table: every recorded state keeps a
record with a value no larger than before. -/
def DMono (D D' : SMap Nat) : Prop :=
  ∀ k v, smapFind? D k = some v → ∃ v', smapFind? D' k = some v' ∧ v' ≤ v

/-- A genuine walk of the search's state space: starting at the origin with
no line, each step follows a graph edge out of a station that resolves in
the station map, paying the transfer-aware segment cost. -/
inductive WalkTo (graph : StationGraph) (stationMap : SMap Station)
    (originCode : String) : String → Option String → Nat → Prop
  | origin : WalkTo graph stationMap originCode originCode none 0
  | step (s : String) (l : Option String) (c : Nat) (station : Station)
      (e : GraphEdge) :
      WalkTo graph stationMap originCode s l c →
      smapFind? stationMap s = some station →
      e ∈ edgesAt graph s →
      WalkTo graph stationMap originCode e.station (some e.line)
        (c + segmentTime l station e)

/-- A predecessor chain from state `k` down to the initial state, listing the
successive predecessor keys. -/
def ChainTo (P : SMap PathInfo) (initKey : String) : List String → String → Prop
  | [], k => k = initKey
  | π :: rest, k =>
    (∃ info, smapFind? P k = some info ∧ ∃ ps, info.prevStation = some ps ∧
      π = mkStateKey ps info.prevLine) ∧ ChainTo P initKey rest π

/-- State `k` (with recorded distance `v`) has been fully expanded: it is
over budget, or its station is unknown, or every outgoing edge has been
relaxed (the target state's recorded distance is at most the relaxed total,
unless that total exceeds the budget). -/
def ExpandedAt (graph : StationGraph) (stationMap : SMap Station) (maxTime : Nat)
    (D : SMap Nat) (k : String) (v : Nat) : Prop :=
  ∃ s l, k = mkStateKey s l ∧ noUnderscore s ∧ wfLineOpt l ∧
    (maxTime < v ∨ smapFind? stationMap s = none ∨
      ∃ station, smapFind? stationMap s = some station ∧
        ∀ e ∈ edgesAt graph s,
          maxTime < v + segmentTime l station e ∨
          ∃ v', smapFind? D (mkStateKey e.station (some e.line)) = some v' ∧
            v' ≤ v + segmentTime l station e)

/-- Every state key the search can ever record: the initial state plus one
key per graph edge. -/
def allStateKeys (graph : StationGraph) (originCode : String) : List String :=
  mkStateKey originCode none ::
    (graph.map (fun p => p.2.map (fun e => mkStateKey e.station (some e.line)))).flatten

/-- Termination potential of the state-distance table: the sum of recorded
distances plus `(maxTime + 1)` for every not-yet-recorded state key. -/
def statePotential (maxTime : Nat) (graph : StationGraph) (sd : SMap Nat) : Nat :=
  (sd.map Prod.snd).sum
    + (maxTime + 1) * (1 + totalEdgeCount graph - sd.length)

/-- Termination measure of the search loop: the potential plus the queue
length.  It strictly decreases on every iteration. -/
def searchMeasure (maxTime : Nat) (graph : StationGraph) (st : SearchState) : Nat :=
  statePotential maxTime graph st.stateDistances + st.queue.length

/-- The core loop invariant of `searchReachableStations` (everything except
the queue-or-expanded property, which is weakened while the popped entry's
edges are being relaxed). -/
structure SearchInvCore (graph : StationGraph) (stationMap : SMap Station)
    (maxTime : Nat) (originCode : String) (st : SearchState) : Prop where
  ndD : (smapKeys st.stateDistances).Nodup
  ndSD : (smapKeys st.stationDistances).Nodup
  keysSub : ∀ k ∈ smapKeys st.stateDistances, k ∈ allStateKeys graph originCode
  leMax : ∀ p ∈ st.stateDistances, p.2 ≤ maxTime
  initD : smapFind? st.stateDistances (mkStateKey originCode none) = some 0
  initP : smapFind? st.pathMap (mkStateKey originCode none)
    = some ⟨none, none, none, 0⟩
  domPD : ∀ k, (smapFind? st.pathMap k).isSome
    ↔ (smapFind? st.stateDistances k).isSome
  pathGood : ∀ k info, smapFind? st.pathMap k = some info →
    k ≠ mkStateKey originCode none →
    ∃ ps pl pStation e dπ dk,
      info = ⟨some ps, pl, some e.line, segmentTime pl pStation e⟩ ∧
      smapFind? stationMap ps = some pStation ∧ e ∈ edgesAt graph ps ∧
      k = mkStateKey e.station (some e.line) ∧
      noUnderscore ps ∧ wfLineOpt pl ∧
      smapFind? st.stateDistances (mkStateKey ps pl) = some dπ ∧
      smapFind? st.stateDistances k = some dk ∧
      dπ + segmentTime pl pStation e ≤ dk
  queueWf : ∀ q ∈ st.queue, noUnderscore q.stationCode ∧ wfLineOpt q.lineCode ∧
    WalkTo graph stationMap originCode q.stationCode q.lineCode q.totalTime ∧
    ∃ v, smapFind? st.stateDistances (mkStateKey q.stationCode q.lineCode)
        = some v ∧ v ≤ q.totalTime
  walkD : ∀ k v, smapFind? st.stateDistances k = some v →
    ∃ s l, k = mkStateKey s l ∧ noUnderscore s ∧ wfLineOpt l ∧
      WalkTo graph stationMap originCode s l v
  sdTracks : ∀ k v, smapFind? st.stateDistances k = some v →
    ∀ s l, k = mkStateKey s l → noUnderscore s → wfLineOpt l →
      ∃ t, smapFind? st.stationDistances s = some t ∧ t ≤ v
  stationBest : ∀ s t, smapFind? st.stationDistances s = some t →
    ∃ l, smapFind? st.bestStateForStation s = some (mkStateKey s l) ∧
      noUnderscore s ∧ wfLineOpt l ∧
      smapFind? st.stateDistances (mkStateKey s l) = some t
  chains : ∀ k, (smapFind? st.pathMap k).isSome →
    ∃ lst, ChainTo st.pathMap (mkStateKey originCode none) lst k ∧
      (k :: lst).Nodup

/-- The full loop invariant: the core plus "every recorded state either has a
live queue entry at exactly its recorded distance, or has been expanded". -/
def SearchInv (graph : StationGraph) (stationMap : SMap Station) (maxTime : Nat)
    (originCode : String) (st : SearchState) : Prop :=
  SearchInvCore graph stationMap maxTime originCode st ∧
  ∀ k v, smapFind? st.stateDistances k = some v →
    (∃ q ∈ st.queue, mkStateKey q.stationCode q.lineCode = k ∧ q.totalTime = v) ∨
    ExpandedAt graph stationMap maxTime st.stateDistances k v

/-- Facts about the popped entry that stay fixed while its edges are being
relaxed. -/
structure RelaxCtx (graph : StationGraph) (stationMap : SMap Station)
    (maxTime : Nat) (originCode : String) (cur : QueueEntry) (cs : Station) :
    Prop where
  hgraph : GoodGraph graph
  horigin : noUnderscore originCode
  hwf : noUnderscore cur.stationCode
  hwfl : wfLineOpt cur.lineCode
  hstation : smapFind? stationMap cur.stationCode = some cs
  hbudget : cur.totalTime ≤ maxTime
  hwalk : WalkTo graph stationMap originCode cur.stationCode cur.lineCode
    cur.totalTime

/-- The invariant maintained across the relaxation fold of one expansion:
the core invariant, the weakened queue-or-expanded property (the popped
entry's own state is excused), and the popped state's recorded distance. -/
def FoldInv (graph : StationGraph) (stationMap : SMap Station) (maxTime : Nat)
    (originCode : String) (cur : QueueEntry) (st : SearchState) : Prop :=
  SearchInvCore graph stationMap maxTime originCode st ∧
  smapFind? st.stateDistances (mkStateKey cur.stationCode cur.lineCode)
    = some cur.totalTime ∧
  ∀ k v, smapFind? st.stateDistances k = some v →
    (∃ q ∈ st.queue, mkStateKey q.stationCode q.lineCode = k ∧ q.totalTime = v) ∨
    ExpandedAt graph stationMap maxTime st.stateDistances k v ∨
    (k = mkStateKey cur.stationCode cur.lineCode ∧ v = cur.totalTime)

/-- One edge has been relaxed: its target's recorded distance is bounded by
the relaxed total (or the total is over budget). -/
def RelaxedOne (graph : StationGraph) (maxTime : Nat) (cur : QueueEntry)
    (cs : Station) (D : SMap Nat) (e : GraphEdge) : Prop :=
  maxTime < cur.totalTime + segmentTime cur.lineCode cs e ∨
  ∃ v', smapFind? D (mkStateKey e.station (some e.line)) = some v' ∧
    v' ≤ cur.totalTime + segmentTime cur.lineCode cs e

/-- The sum of the per-segment times of a reconstructed route. -/
def routeTimeSum (route : List RouteStep) : Nat :=
  (route.map (fun s => s.time)).sum

/-! ## Concrete fixtures (small station networks used by witnesses and
counterexamples) -/

def exStA : Station := ⟨"A", "StA", 0, 0, [⟨"L1", "Line1", "Op"⟩]⟩

def exStB : Station := ⟨"B", "StB", 0, 0, [⟨"L1", "Line1", "Op"⟩, ⟨"L2", "Line2", "Op"⟩]⟩

def exStC : Station := ⟨"C", "StC", 0, 0, [⟨"L1", "Line1", "Op"⟩]⟩

def exStD : Station := ⟨"D", "StD", 0, 0, [⟨"L2", "Line2", "Op"⟩]⟩

def exStE : Station := ⟨"E", "StE", 0, 0, [⟨"L1", "Line1", "Op"⟩, ⟨"L2", "Line2", "Op"⟩]⟩

def exStations3 : List Station := [exStA, exStB, exStC]

def exConns3 : List ConnectionWithTime := [⟨"A", "B", "L1", 5⟩, ⟨"B", "C", "L1", 4⟩]

def exGraph3 : StationGraph := buildGraph exStations3 exConns3

def exMap3 : SMap Station := stationIndex exStations3

/-- A connection whose line code is the empty string (falsy in JS). -/
def exConnsEmptyLine : List ConnectionWithTime := [⟨"A", "B", "L1", 2⟩, ⟨"B", "C", "", 2⟩]

def exGraphEmptyLine : StationGraph := buildGraph exStations3 exConnsEmptyLine

/-- The reconstructed route of station C in the `exGraph3` run from "A". -/
def exRouteC : List RouteStep :=
  [⟨"A", "B", "StA", "StB", "Line1", 5⟩, ⟨"B", "C", "StB", "StC", "Line1", 4⟩]

/-- The search result for station C in the `exGraph3` run from "A". -/
def exResultC : SearchResult := ⟨exStC, 9, [("A", 9)], some [("A", exRouteC)]⟩

/-- The search result for station B in the `exGraph3` run from "A" with
budget 10. -/
def exResultB10 : SearchResult :=
  ⟨exStB, 5, [("A", 5)],
    some [("A", [⟨"A", "B", "StA", "StB", "Line1", 5⟩])]⟩

/-! Fixture for the C6 counterexample: a station code containing an
underscore ("S_x") makes two distinct search states share the string key
"S_x_L", and an expensive edge (time 30) is queued only at the larger
budget, flipping the pop order of the two equal-priority entries that reach
the colliding states. -/

def exStTieO : Station :=
  ⟨"O", "StO", 0, 0, [⟨"lr", "lr", "Op"⟩, ⟨"la", "la", "Op"⟩,
    ⟨"lb", "lb", "Op"⟩, ⟨"lc", "lc", "Op"⟩]⟩

def exStTieR : Station := ⟨"R", "StR", 0, 0, [⟨"lr", "lr", "Op"⟩]⟩

def exStTieA : Station :=
  ⟨"A", "StA", 0, 0, [⟨"la", "la", "Op"⟩, ⟨"x_L", "x_L", "Op"⟩]⟩

def exStTieB : Station :=
  ⟨"B", "StB", 0, 0, [⟨"lb", "lb", "Op"⟩, ⟨"L", "L", "Op"⟩]⟩

def exStTieS : Station := ⟨"S", "StS", 0, 0, [⟨"x_L", "x_L", "Op"⟩]⟩

def exStTieSx : Station := ⟨"S_x", "StSx", 0, 0, [⟨"L", "L", "Op"⟩]⟩

def exStTieC : Station := ⟨"C", "StC", 0, 0, [⟨"lc", "lc", "Op"⟩]⟩

def exTieStations : List Station :=
  [exStTieO, exStTieR, exStTieA, exStTieB, exStTieS, exStTieSx, exStTieC]

def exTieConns : List ConnectionWithTime :=
  [⟨"O", "R", "lr", 2⟩, ⟨"O", "A", "la", 3⟩, ⟨"O", "B", "lb", 3⟩,
   ⟨"O", "C", "lc", 30⟩, ⟨"A", "S", "x_L", 1⟩, ⟨"B", "S_x", "L", 2⟩]

def exTieGraph : StationGraph := buildGraph exTieStations exTieConns

def exTieMap : SMap Station := stationIndex exTieStations

def exStations5 : List Station := [exStA, exStD, exStE]

def exConns5 : List ConnectionWithTime := [⟨"A", "E", "L1", 10⟩, ⟨"D", "E", "L2", 25⟩]

def exGraph5 : StationGraph := buildGraph exStations5 exConns5

def exMap5 : SMap Station := stationIndex exStations5

def exStUA : Station := ⟨"A", "StA", 0, 0, [⟨"LU", "LineU", "Op"⟩]⟩

def exStUB : Station := ⟨"B", "StB", 0, 0, [⟨"LU", "LineU", "Op"⟩]⟩

/-- A station whose code contains an underscore. -/
def exStUBC : Station := ⟨"B_C", "StBC", 0, 0, [⟨"LU", "LineU", "Op"⟩]⟩

def exStationsU : List Station := [exStUA, exStUB, exStUBC]

def exConnsU : List ConnectionWithTime := [⟨"A", "B_C", "LU", 3⟩]

def exGraphU : StationGraph := buildGraph exStationsU exConnsU

def exMapU : SMap Station := stationIndex exStationsU

def exStLines3 : Station :=
  ⟨"F3", "StF3", 0, 0, [⟨"La", "A", "Op"⟩, ⟨"Lb", "B", "Op"⟩, ⟨"Lc", "C", "Op"⟩]⟩

def exStLines5 : Station :=
  ⟨"F5", "StF5", 0, 0,
    [⟨"La", "A", "Op"⟩, ⟨"Lb", "B", "Op"⟩, ⟨"Lc", "C", "Op"⟩, ⟨"Ld", "D", "Op"⟩,
      ⟨"Le", "E", "Op"⟩]⟩

def exStLines7 : Station :=
  ⟨"F7", "StF7", 0, 0,
    [⟨"La", "A", "Op"⟩, ⟨"Lb", "B", "Op"⟩, ⟨"Lc", "C", "Op"⟩, ⟨"Ld", "D", "Op"⟩,
      ⟨"Le", "E", "Op"⟩, ⟨"Lf", "F", "Op"⟩, ⟨"Lg", "G", "Op"⟩]⟩

def exStations2 : List Station := [exStA, exStB]

def exConns2 : List ConnectionWithTime := [⟨"A", "B", "L1", 5⟩]

def exGraph2 : StationGraph := buildGraph exStations2 exConns2

def exMap2 : SMap Station := stationIndex exStations2

def exConnsEst : List Connection := [⟨"A", "B", "L1"⟩]

def exGraphEst : StationGraph := buildGraphEstimated (fun _ _ => 4) exStations2 exConnsEst

/-- The single result of the OR query from origin `"A"` on the two-station
network (a witness instance). -/
def exOrResultB : SearchResult :=
  { station := exStB
    totalTime := 5
    timesFromOrigins := [("A", 5)]
    routesFromOrigins := some [("A", [⟨"A", "B", "StA", "StB", "Line1", 5⟩])] }

/-- The single result of the AND query from origins `{"A", "D"}` on the
three-station network (a witness instance, matching the spec's AND
scenario). -/
def exAndResultE : SearchResult :=
  { station := exStE
    totalTime := 25
    timesFromOrigins := [("A", 10), ("D", 25)]
    routesFromOrigins := some [("A", [⟨"A", "E", "StA", "StE", "Line1", 10⟩]),
                               ("D", [⟨"D", "E", "StD", "StE", "Line2", 25⟩])] }

/-! # Theorems

## Supporting lemmas for the association-map and state-key embedding -/

theorem smapFind?_eq_none {α : Type} (m : SMap α) (key : String)
    (h : key ∉ smapKeys m) : smapFind? m key = none := by
  induction m with
  | nil => rfl
  | cons p rest ih =>
    simp only [smapKeys, List.map_cons, List.mem_cons] at h
    push_neg at h
    simp only [smapFind?, if_neg (Ne.symm h.1)]
    exact ih h.2

theorem smapFind?_isSome_iff_mem {α : Type} (m : SMap α) (key : String) :
    (smapFind? m key).isSome ↔ key ∈ smapKeys m := by
  induction m with
  | nil => simp [smapFind?, smapKeys]
  | cons p rest ih =>
    obtain ⟨k, v⟩ := p
    simp only [smapFind?, smapKeys, List.map_cons, List.mem_cons]
    by_cases hk : k = key
    · simp [hk]
    · simp only [if_neg hk, ih, smapKeys]
      constructor
      · exact Or.inr
      · rintro (h | h)
        · exact absurd h.symm hk
        · exact h

theorem smapKeys_set {α : Type} (m : SMap α) (key : String) (val : α) :
    smapKeys (smapSet m key val) =
      if key ∈ smapKeys m then smapKeys m else smapKeys m ++ [key] := by
  induction m with
  | nil => simp [smapSet, smapKeys]
  | cons p rest ih =>
    obtain ⟨k, v⟩ := p
    by_cases hk : k = key
    · subst hk
      simp [smapSet, smapKeys]
    · simp only [smapSet, if_neg hk, smapKeys, List.map_cons, List.mem_cons] at *
      rw [ih]
      by_cases hmem : key ∈ List.map Prod.fst rest
      · simp [hmem]
      · simp [hmem, Ne.symm hk]

theorem smapKeys_set_nodup {α : Type} (m : SMap α) (key : String) (val : α)
    (h : (smapKeys m).Nodup) : (smapKeys (smapSet m key val)).Nodup := by
  rw [smapKeys_set]
  by_cases hmem : key ∈ smapKeys m
  · simpa [hmem]
  · simp only [hmem, if_false]
    simpa [List.nodup_append, hmem] using h

theorem smapFind?_set_self {α : Type} (m : SMap α) (key : String) (val : α) :
    smapFind? (smapSet m key val) key = some val := by
  induction m with
  | nil => simp [smapSet, smapFind?]
  | cons p rest ih =>
    obtain ⟨k, v⟩ := p
    by_cases hk : k = key
    · subst hk; simp [smapSet, smapFind?]
    · simp [smapSet, if_neg hk, smapFind?, hk, ih]

theorem smapFind?_set_ne {α : Type} (m : SMap α) (key key' : String) (val : α)
    (h : key ≠ key') : smapFind? (smapSet m key val) key' = smapFind? m key' := by
  induction m with
  | nil => simp [smapSet, smapFind?, h]
  | cons p rest ih =>
    obtain ⟨k, v⟩ := p
    by_cases hk : k = key
    · subst hk; simp [smapSet, smapFind?, h, ih]
    · simp only [smapSet, if_neg hk, smapFind?, ih]

theorem takeUntilUnderscore_append (l r : List Char) (h : '_' ∉ l) :
    takeUntilUnderscore (l ++ '_' :: r) = l := by
  induction l with
  | nil => simp [takeUntilUnderscore]
  | cons x xs ih =>
    simp only [List.mem_cons, not_or] at h
    simp only [List.cons_append, List.append_eq, takeUntilUnderscore,
      if_neg (Ne.symm h.1 : x ≠ '_')]
    rw [ih h.2]

theorem mkStateKey_data (c : String) (l : Option String) :
    (mkStateKey c l).data = c.data ++ '_' :: (lineKeyStr l).data := by
  simp [mkStateKey, String.data_append]

theorem splitHead_mkStateKey (c : String) (l : Option String) (h : noUnderscore c) :
    splitHead (mkStateKey c l) = c := by
  unfold splitHead
  rw [mkStateKey_data, takeUntilUnderscore_append _ _ h]

theorem underscore_split_inj (l₁ l₂ r₁ r₂ : List Char) (h₁ : '_' ∉ l₁)
    (h₂ : '_' ∉ l₂) (h : l₁ ++ '_' :: r₁ = l₂ ++ '_' :: r₂) :
    l₁ = l₂ ∧ r₁ = r₂ := by
  induction l₁ generalizing l₂ with
  | nil =>
    cases l₂ with
    | nil => simpa using h
    | cons y ys =>
      simp only [List.nil_append, List.cons_append, List.cons.injEq] at h
      exact absurd (h.1 ▸ List.mem_cons_self y ys) h₂
  | cons x xs ih =>
    cases l₂ with
    | nil =>
      simp only [List.nil_append, List.cons_append, List.cons.injEq] at h
      exact absurd (h.1.symm ▸ List.mem_cons_self x xs) h₁
    | cons y ys =>
      simp only [List.cons_append, List.cons.injEq] at h
      simp only [List.mem_cons, not_or] at h₁ h₂
      obtain ⟨hl, hr⟩ := ih ys h₁.2 h₂.2 h.2
      exact ⟨by rw [h.1, hl], hr⟩

theorem stringDataInj {a b : String} (h : a.data = b.data) : a = b := by
  cases a; cases b; exact congrArg String.mk h

/-- Injectivity of the state encoding on well-formed pairs: underscore-free
station codes, and line codes that are not the string `"null"`. -/
theorem mkStateKey_inj (c₁ c₂ : String) (l₁ l₂ : Option String)
    (h₁ : noUnderscore c₁) (h₂ : noUnderscore c₂)
    (hl₁ : ∀ s, l₁ = some s → s ≠ "null") (hl₂ : ∀ s, l₂ = some s → s ≠ "null")
    (h : mkStateKey c₁ l₁ = mkStateKey c₂ l₂) : c₁ = c₂ ∧ l₁ = l₂ := by
  have hdata : c₁.data ++ '_' :: (lineKeyStr l₁).data
      = c₂.data ++ '_' :: (lineKeyStr l₂).data := by
    have := congrArg String.data h
    rwa [mkStateKey_data, mkStateKey_data] at this
  obtain ⟨hc, hr⟩ := underscore_split_inj _ _ _ _ h₁ h₂ hdata
  have hceq : c₁ = c₂ := stringDataInj hc
  have hlk : lineKeyStr l₁ = lineKeyStr l₂ := stringDataInj hr
  refine ⟨hceq, ?_⟩
  cases l₁ with
  | none =>
    cases l₂ with
    | none => rfl
    | some s => exact absurd hlk.symm (by simpa [lineKeyStr] using hl₂ s rfl)
  | some s =>
    cases l₂ with
    | none => exact absurd hlk (by simpa [lineKeyStr] using hl₁ s rfl)
    | some s' => simpa [lineKeyStr] using hlk

/-! ## Permutation lemmas: the stable sort and the heap only permute their
entries -/

theorem insertSortedByTime_perm (r : SearchResult) (l : List SearchResult) :
    List.Perm (insertSortedByTime r l) (r :: l) := by
  induction l with
  | nil => exact List.Perm.refl _
  | cons x xs ih =>
    unfold insertSortedByTime
    split
    · exact (ih.cons x).trans (List.Perm.swap r x xs)
    · exact List.Perm.refl _

theorem sortResultsByTime_aux_perm (l : List SearchResult) :
    ∀ acc, List.Perm (l.foldl (fun acc r => insertSortedByTime r acc) acc) (acc ++ l) := by
  induction l with
  | nil => intro acc; simp
  | cons x xs ih =>
    intro acc
    have h1 := ih (insertSortedByTime x acc)
    have h2 : List.Perm (insertSortedByTime x acc ++ xs) ((x :: acc) ++ xs) :=
      (insertSortedByTime_perm x acc).append_right xs
    have h3 : List.Perm ((x :: acc) ++ xs) (acc ++ x :: xs) :=
      List.perm_middle.symm
    exact (h1.trans h2).trans h3

theorem sortResultsByTime_perm (l : List SearchResult) :
    List.Perm (sortResultsByTime l) l := by
  simpa using sortResultsByTime_aux_perm l []

theorem mem_sortResultsByTime (r : SearchResult) (l : List SearchResult) :
    r ∈ sortResultsByTime l ↔ r ∈ l :=
  (sortResultsByTime_perm l).mem_iff

theorem listSet_getD_perm : ∀ (t : List QueueEntry) (k : Nat) (a : QueueEntry),
    k < t.length → List.Perm (t.getD k default :: t.set k a) (a :: t)
  | b :: t', 0, a, _ => by
    simpa [List.getD] using List.Perm.swap a b t'
  | b :: t', k + 1, a, hk => by
    have ih := listSet_getD_perm t' k a (by simpa using hk)
    have h1 : List.Perm (t'.getD k default :: b :: t'.set k a)
        (b :: t'.getD k default :: t'.set k a) := List.Perm.swap b _ _
    have h2 := ih.cons b
    have h3 : List.Perm (b :: a :: t') (a :: b :: t') := List.Perm.swap a b t'
    simpa [List.getD] using (h1.trans h2).trans h3

theorem setGetDSelf : ∀ (t : List QueueEntry) (k : Nat), t.set k (t.getD k default) = t
  | [], _ => by simp
  | _ :: _, 0 => by simp [List.getD]
  | b :: t', k + 1 => by
    simpa [List.getD_cons_succ] using congrArg (b :: ·) (setGetDSelf t' k)

theorem heapSwap_perm (h : List QueueEntry) (i j : Nat) (hi : i < h.length)
    (hj : j < h.length) : List.Perm (heapSwap h i j) h := by
  induction h generalizing i j with
  | nil => simp at hi
  | cons a t ih =>
    cases i with
    | zero =>
      cases j with
      | zero =>
        simp [heapSwap, heapGet, List.getD, setGetDSelf]
      | succ j' =>
        have hj' : j' < t.length := by simpa using hj
        have heq : heapSwap (a :: t) 0 (j' + 1) = t.getD j' default :: t.set j' a := by
          simp [heapSwap, heapGet, List.getD]
        rw [heq]
        exact listSet_getD_perm t j' a hj'
    | succ i' =>
      cases j with
      | zero =>
        have hi' : i' < t.length := by simpa using hi
        have heq : heapSwap (a :: t) (i' + 1) 0 = t.getD i' default :: t.set i' a := by
          simp [heapSwap, heapGet, List.getD]
        rw [heq]
        exact listSet_getD_perm t i' a hi'
      | succ j' =>
        have heq : heapSwap (a :: t) (i' + 1) (j' + 1) = a :: heapSwap t i' j' := by
          simp [heapSwap, heapGet, List.getD]
        rw [heq]
        exact (ih i' j' (by simpa using hi) (by simpa using hj)).cons a

theorem bubbleUp_perm : ∀ (depth : Nat) (h : List QueueEntry) (i : Nat),
    i < h.length → List.Perm (bubbleUp depth h i) h
  | 0, h, _, _ => List.Perm.refl h
  | _ + 1, h, 0, _ => List.Perm.refl h
  | depth + 1, h, i + 1, hi => by
    simp only [bubbleUp]
    split
    · exact List.Perm.refl h
    · have hp : i / 2 < h.length := lt_trans (Nat.lt_succ_of_le (Nat.div_le_self i 2)) hi
      have hlen : (heapSwap h (i / 2) (i + 1)).length = h.length := by
        simp [heapSwap]
      exact (bubbleUp_perm depth _ (i / 2) (by rw [hlen]; exact hp)).trans
        (heapSwap_perm h (i / 2) (i + 1) hp hi)

theorem bubbleDown_perm : ∀ (depth : Nat) (h : List QueueEntry) (i : Nat),
    List.Perm (bubbleDown depth h i) h
  | 0, h, _ => List.Perm.refl h
  | depth + 1, h, i => by
    simp only [bubbleDown]
    by_cases h1 : 2 * i + 1 < h.length ∧
        (heapGet h (2 * i + 1)).totalTime < (heapGet h i).totalTime
    · rw [if_pos h1]
      by_cases h2 : 2 * i + 2 < h.length ∧
          (heapGet h (2 * i + 2)).totalTime < (heapGet h (2 * i + 1)).totalTime
      · rw [if_pos h2, if_neg (by omega : ¬(2 * i + 2 = i))]
        exact (bubbleDown_perm depth _ _).trans
          (heapSwap_perm h i (2 * i + 2) (by omega) h2.1)
      · rw [if_neg h2, if_neg (by omega : ¬(2 * i + 1 = i))]
        exact (bubbleDown_perm depth _ _).trans
          (heapSwap_perm h i (2 * i + 1) (by omega) h1.1)
    · rw [if_neg h1]
      by_cases h2 : 2 * i + 2 < h.length ∧
          (heapGet h (2 * i + 2)).totalTime < (heapGet h i).totalTime
      · rw [if_pos h2, if_neg (by omega : ¬(2 * i + 2 = i))]
        exact (bubbleDown_perm depth _ _).trans
          (heapSwap_perm h i (2 * i + 2) (by omega) h2.1)
      · rw [if_neg h2, if_pos rfl]

theorem heapPush_perm (h : List QueueEntry) (e : QueueEntry) :
    List.Perm (heapPush h e) (e :: h) := by
  unfold heapPush
  exact (bubbleUp_perm (h.length + 1) (h ++ [e]) h.length (by simp)).trans
    (List.perm_append_singleton e h)

theorem lastCons_perm : ∀ (y : QueueEntry) (ys : List QueueEntry),
    List.Perm (List.getLastD ys y :: (y :: ys).dropLast) (y :: ys)
  | y, [] => by simp
  | y, z :: zs => by
    have ih := lastCons_perm z zs
    have h0 : List.getLastD (z :: zs) y = List.getLastD zs z := by
      cases zs <;> simp [List.getLastD]
    have h1 : (y :: z :: zs).dropLast = y :: (z :: zs).dropLast := by simp
    rw [h0, h1]
    exact (List.Perm.swap y _ _).trans (ih.cons y)

theorem heapPop_perm (h : List QueueEntry) (x : QueueEntry)
    (rest : List QueueEntry) (hp : heapPop h = (some x, rest)) :
    List.Perm (x :: rest) h := by
  cases h with
  | nil => simp [heapPop] at hp
  | cons xx t =>
    cases t with
    | nil =>
      simp only [heapPop, Prod.mk.injEq, Option.some.injEq] at hp
      rw [← hp.1, ← hp.2]
    | cons y ys =>
      simp only [heapPop, Prod.mk.injEq, Option.some.injEq] at hp
      rw [← hp.1, ← hp.2]
      exact ((bubbleDown_perm _ _ 0).trans (lastCons_perm y ys)).cons xx

theorem heapPop_none (h : List QueueEntry) (rest : List QueueEntry)
    (hp : heapPop h = (none, rest)) : h = [] ∧ rest = [] := by
  cases h with
  | nil =>
    simp only [heapPop, Prod.mk.injEq] at hp
    exact ⟨rfl, hp.2.symm⟩

  | cons xx t =>
    cases t with
    | nil => simp [heapPop] at hp
    | cons y ys => simp [heapPop] at hp

/-- Generic `foldl` invariant-preservation helper. -/
theorem foldl_preserve {α β : Type} {P : β → Prop} (f : β → α → β) (l : List α)
    (init : β) (hstep : ∀ acc x, x ∈ l → P acc → P (f acc x)) (hinit : P init) :
    P (l.foldl f init) := by
  induction l generalizing init with
  | nil => exact hinit
  | cons x xs ih =>
    exact ih _ (fun acc y hy => hstep acc y (List.mem_cons_of_mem x hy))
      (hstep init x (List.mem_cons_self x xs) hinit)

/-! ## Claim C9: the Transfer Cost Estimator step function -/

/-- C9: for every station, `estimateTransferTime` returns 3 when the station
has at most 2 lines, 5 when it has 3 or 4 lines, 7 when it has 5 or 6 lines,
and 10 otherwise; it is a total function of the line count with no failure
mode. -/
theorem estimateTransferTime_step_function (s : Station) :
    (s.lines.length ≤ 2 → estimateTransferTime s = 3) ∧
    (2 < s.lines.length → s.lines.length ≤ 4 → estimateTransferTime s = 5) ∧
    (4 < s.lines.length → s.lines.length ≤ 6 → estimateTransferTime s = 7) ∧
    (6 < s.lines.length → estimateTransferTime s = 10) := by
  refine ⟨fun h => ?_, fun h1 h2 => ?_, fun h1 h2 => ?_, fun h => ?_⟩ <;>
    simp only [estimateTransferTime] <;> split_ifs <;> omega

theorem estimateTransferTime_step_function_witness :
    (exStA.lines.length ≤ 2 ∧ estimateTransferTime exStA = 3) ∧
    (2 < exStLines3.lines.length ∧ exStLines3.lines.length ≤ 4 ∧
      estimateTransferTime exStLines3 = 5) ∧
    (4 < exStLines5.lines.length ∧ exStLines5.lines.length ≤ 6 ∧
      estimateTransferTime exStLines5 = 7) ∧
    (6 < exStLines7.lines.length ∧ estimateTransferTime exStLines7 = 10) :=
  ⟨⟨by decide, (estimateTransferTime_step_function exStA).1 (by decide)⟩,
   ⟨by decide, by decide,
     (estimateTransferTime_step_function exStLines3).2.1 (by decide) (by decide)⟩,
   ⟨by decide, by decide,
     (estimateTransferTime_step_function exStLines5).2.2.1 (by decide) (by decide)⟩,
   ⟨by decide, (estimateTransferTime_step_function exStLines7).2.2.2 (by decide)⟩⟩

/-! ## Claim C3: transfer-aware edge relaxation -/

/-- C3: when the search relaxes an edge out of state `(s, l)`, the segment
time equals the edge weight when `l` is the no-line sentinel or equals the
edge's line, and the edge weight plus `estimateTransferTime` of the current
station otherwise; when the relaxation is within budget and improves the
target state, the stored total is the current total plus that segment time,
and the recorded `PathInfo` carries exactly that segment time. -/
theorem relaxEdge_transfer_semantics (maxTime : Nat) (cur : QueueEntry)
    (currentStation : Station) (st : SearchState) (e : GraphEdge) :
    ((cur.lineCode = none ∨ cur.lineCode = some e.line) →
      segmentTime cur.lineCode currentStation e = e.time) ∧
    (cur.lineCode ≠ none → cur.lineCode ≠ some e.line →
      segmentTime cur.lineCode currentStation e
        = e.time + estimateTransferTime currentStation) ∧
    (cur.totalTime + segmentTime cur.lineCode currentStation e ≤ maxTime →
      stateImproved st (mkStateKey e.station (some e.line))
        (cur.totalTime + segmentTime cur.lineCode currentStation e) = true →
      smapFind? (relaxEdge maxTime cur currentStation st e).stateDistances
          (mkStateKey e.station (some e.line))
        = some (cur.totalTime + segmentTime cur.lineCode currentStation e) ∧
      smapFind? (relaxEdge maxTime cur currentStation st e).pathMap
          (mkStateKey e.station (some e.line))
        = some ⟨some cur.stationCode, cur.lineCode, some e.line,
            segmentTime cur.lineCode currentStation e⟩) := by
  refine ⟨?_, ?_, ?_⟩
  · rintro (h | h) <;> simp [segmentTime, h]
  · intro h1 h2
    simp [segmentTime, h1, h2]
  · intro hbudget himproved
    unfold relaxEdge
    rw [if_neg (by omega)]
    simp only [himproved, if_true]
    exact ⟨smapFind?_set_self _ _ _, smapFind?_set_self _ _ _⟩

theorem relaxEdge_transfer_semantics_witness :
    ((some "L1" : Option String) ≠ none ∧ (some "L1" : Option String) ≠ some "L2" ∧
      segmentTime (some "L1") exStB ⟨"C", 4, "L2"⟩
        = 4 + estimateTransferTime exStB) ∧
    segmentTime (some "L1") exStB ⟨"C", 4, "L1"⟩ = 4 ∧
    (5 + segmentTime (some "L1") exStB ⟨"C", 4, "L2"⟩ ≤ 20 ∧
      smapFind? (relaxEdge 20 ⟨"B", some "L1", 5⟩ exStB
          (initialSearchState "A") ⟨"C", 4, "L2"⟩).stateDistances
          (mkStateKey "C" (some "L2"))
        = some (5 + segmentTime (some "L1") exStB ⟨"C", 4, "L2"⟩)) :=
  ⟨⟨by decide, by decide,
    (relaxEdge_transfer_semantics 20 ⟨"B", some "L1", 5⟩ exStB
        (initialSearchState "A") ⟨"C", 4, "L2"⟩).2.1 (by decide) (by decide)⟩,
   (relaxEdge_transfer_semantics 20 ⟨"B", some "L1", 5⟩ exStB
       (initialSearchState "A") ⟨"C", 4, "L1"⟩).1 (Or.inr rfl),
   ⟨by decide,
    ((relaxEdge_transfer_semantics 20 ⟨"B", some "L1", 5⟩ exStB
        (initialSearchState "A") ⟨"C", 4, "L2"⟩).2.2 (by decide) (by decide)).1⟩⟩

/-! ## Claim C7: `buildGraph` side effects and idempotence -/

/-- C7 counterexample: `buildGraph` does modify state outside its returned
value: starting from the empty module cache, a call stores the built graph in
the module-level `graphCache`. -/
theorem buildGraph_cache_mutation :
    (buildGraphCached none exStations2 exConns2).2 ≠ none := by
  simp [buildGraphCached]

/-- C7 (amended): the only state `buildGraph` modifies beyond its return
value is the module-level graph cache, which afterwards holds exactly the
returned graph; calling it again with the same station list and connection
list returns an equal graph (the cached one). -/
theorem buildGraphCached_cache_and_idempotent (cache : Option StationGraph)
    (stations : List Station) (connections : List ConnectionWithTime) :
    (buildGraphCached cache stations connections).2
      = some (buildGraphCached cache stations connections).1 ∧
    (buildGraphCached (buildGraphCached cache stations connections).2
        stations connections).1
      = (buildGraphCached cache stations connections).1 := by
  cases cache <;> simp [buildGraphCached]

/-! ## Claim C8: unknown origin codes yield an empty result -/

/-- C8: for every graph, station map and budget, searching from an origin
code that is not a key of the station map returns the empty result list. -/
theorem searchReachable_unknown_origin (graph : StationGraph)
    (stationMap : SMap Station) (originCode : String) (maxTime : Nat)
    (h : smapFind? stationMap originCode = none) :
    searchReachableStations graph stationMap originCode maxTime = [] := by
  have hstep : searchStep graph stationMap maxTime (initialSearchState originCode)
      = { initialSearchState originCode with queue := [] } := by
    simp [searchStep, initialSearchState, heapPop, smapFind?, h]
  have hloop : ∀ fuel,
      searchLoop graph stationMap maxTime (fuel + 2) (initialSearchState originCode)
        = { initialSearchState originCode with queue := [] } := by
    intro fuel
    show searchLoop graph stationMap maxTime (fuel + 1 + 1) _ = _
    rw [searchLoop]
    rw [if_neg (by simp [initialSearchState])]
    rw [hstep]
    cases fuel with
    | zero => rfl
    | succ fuel' =>
      rw [searchLoop]
      rw [if_pos rfl]
  unfold searchReachableStations searchFuel
  rw [hloop]
  simp [initialSearchState, h, sortResultsByTime]

theorem searchReachable_unknown_origin_witness :
    smapFind? exMap3 "Z" = none ∧
    searchReachableStations exGraph3 exMap3 "Z" 20 = [] :=
  ⟨by decide, searchReachable_unknown_origin exGraph3 exMap3 "Z" 20 (by decide)⟩

/-! ## Claim C5: graph symmetry -/

theorem edgesAt_set_self (g : StationGraph) (c : String) (es : List GraphEdge) :
    edgesAt (smapSet g c es) c = es := by
  simp [edgesAt, smapFind?_set_self]

theorem edgesAt_set_ne (g : StationGraph) (c c' : String) (es : List GraphEdge)
    (h : c ≠ c') : edgesAt (smapSet g c es) c' = edgesAt g c' := by
  simp [edgesAt, smapFind?_set_ne _ _ _ _ h]

theorem insertEdge_mem (g : StationGraph) (c : String) (ne : GraphEdge)
    (x : GraphEdge) (c' : String) :
    x ∈ edgesAt (smapSet g c (edgesAt g c ++ [ne])) c' ↔
      (c' = c ∧ (x ∈ edgesAt g c ∨ x = ne)) ∨ (c' ≠ c ∧ x ∈ edgesAt g c') := by
  by_cases h : c' = c
  · subst h; simp [edgesAt_set_self]
  · simp [edgesAt_set_ne _ _ _ _ (Ne.symm h), h]

theorem insertEdge_mono (g : StationGraph) (c c' : String) (ne : GraphEdge)
    (x : GraphEdge) (hx : x ∈ edgesAt g c') :
    x ∈ edgesAt (smapSet g c (edgesAt g c ++ [ne])) c' := by
  rw [insertEdge_mem]
  by_cases h : c' = c
  · exact Or.inl ⟨h, Or.inl (h ▸ hx)⟩
  · exact Or.inr ⟨h, hx⟩

theorem any_target_line_iff (es : List GraphEdge) (tgt l : String) :
    es.any (fun e => e.station = tgt ∧ e.line = l) = true ↔
      ∃ w, (⟨tgt, w, l⟩ : GraphEdge) ∈ es := by
  simp only [List.any_eq_true, decide_eq_true_eq]
  constructor
  · rintro ⟨e, he, h1, h2⟩
    exact ⟨e.time, by cases e; simp_all⟩
  · rintro ⟨w, hw⟩
    exact ⟨⟨tgt, w, l⟩, hw, rfl, rfl⟩

theorem selfInsert_mem (g : StationGraph) (A l : String) (t : Nat)
    (x : GraphEdge) (c : String) :
    x ∈ edgesAt (smapSet g A (edgesAt g A ++ [⟨A, t, l⟩])) c ↔
      x ∈ edgesAt g c ∨ (c = A ∧ x = ⟨A, t, l⟩) := by
  rw [insertEdge_mem]
  by_cases hc : c = A
  · subst hc; simp
  · simp [hc]

theorem selfInsert_symm (g : StationGraph) (A l : String) (t : Nat)
    (hg : SymGraph g) : SymGraph (smapSet g A (edgesAt g A ++ [⟨A, t, l⟩])) := by
  intro a b l' w hx
  rw [selfInsert_mem] at hx
  rw [selfInsert_mem]
  rcases hx with hx | ⟨ha, hx⟩
  · exact Or.inl (hg a b l' w hx)
  · cases hx
    exact Or.inr ⟨rfl, by rw [ha]⟩

theorem doubleInsert_mem (g : StationGraph) (A B l : String) (t : Nat)
    (hAB : A ≠ B) (x : GraphEdge) (c : String) :
    x ∈ edgesAt (smapSet (smapSet g A (edgesAt g A ++ [⟨B, t, l⟩])) B
        (edgesAt (smapSet g A (edgesAt g A ++ [⟨B, t, l⟩])) B ++ [⟨A, t, l⟩])) c ↔
      x ∈ edgesAt g c ∨ (c = A ∧ x = ⟨B, t, l⟩) ∨ (c = B ∧ x = ⟨A, t, l⟩) := by
  simp only [insertEdge_mem]
  by_cases hcB : c = B
  · subst hcB
    simp [Ne.symm hAB, hAB]
  · by_cases hcA : c = A
    · subst hcA
      simp [hAB, hcB]
    · simp [hcA, hcB]

theorem doubleInsert_symm (g : StationGraph) (A B l : String) (t : Nat)
    (hAB : A ≠ B) (hg : SymGraph g) :
    SymGraph (smapSet (smapSet g A (edgesAt g A ++ [⟨B, t, l⟩])) B
      (edgesAt (smapSet g A (edgesAt g A ++ [⟨B, t, l⟩])) B ++ [⟨A, t, l⟩])) := by
  intro a b l' w hx
  rw [doubleInsert_mem g A B l t hAB] at hx
  rw [doubleInsert_mem g A B l t hAB]
  rcases hx with hx | ⟨ha, hx⟩ | ⟨ha, hx⟩
  · exact Or.inl (hg a b l' w hx)
  · cases hx
    exact Or.inr (Or.inr ⟨rfl, by rw [ha]⟩)
  · cases hx
    exact Or.inr (Or.inl ⟨rfl, by rw [ha]⟩)

theorem insertDirectedEdge_pos (g : StationGraph) (src tgt line : String) (t : Nat)
    (hc : (edgesAt g src).any (fun e => e.station = tgt ∧ e.line = line) = true) :
    insertDirectedEdge g src tgt line t = g := by
  unfold insertDirectedEdge
  rw [if_pos hc]

theorem insertDirectedEdge_neg (g : StationGraph) (src tgt line : String) (t : Nat)
    (hc : ¬((edgesAt g src).any (fun e => e.station = tgt ∧ e.line = line) = true)) :
    insertDirectedEdge g src tgt line t
      = smapSet g src (edgesAt g src ++ [⟨tgt, t, line⟩]) := by
  unfold insertDirectedEdge
  rw [if_neg hc]

theorem addConnectionEdges_symm (g : StationGraph) (A B l : String) (t : Nat)
    (hg : SymGraph g) : SymGraph (addConnectionEdges g A B l t) := by
  unfold addConnectionEdges
  by_cases hc1 : (edgesAt g A).any (fun e => e.station = B ∧ e.line = l) = true
  · -- the A-side edge exists; by symmetry so does the B-side one: no change
    rw [insertDirectedEdge_pos g A B l t hc1]
    have hmirror : (edgesAt g B).any (fun e => e.station = A ∧ e.line = l) = true := by
      rw [any_target_line_iff] at hc1 ⊢
      obtain ⟨w, hw⟩ := hc1
      exact ⟨w, hg A B l w hw⟩
    rw [insertDirectedEdge_pos g B A l t hmirror]
    exact hg
  · rw [insertDirectedEdge_neg g A B l t hc1]
    by_cases hAB : A = B
    · -- self-connection: the inserted self-edge makes the second check succeed
      subst hAB
      have hin : (edgesAt (smapSet g A (edgesAt g A ++ [⟨A, t, l⟩])) A).any
          (fun e => e.station = A ∧ e.line = l) = true := by
        rw [any_target_line_iff, edgesAt_set_self]
        exact ⟨t, by simp⟩
      rw [insertDirectedEdge_pos _ A A l t hin]
      exact selfInsert_symm g A l t hg
    · -- distinct endpoints: the B-side check fails too, and both edges go in
      have hmirror : ¬((edgesAt (smapSet g A (edgesAt g A ++ [⟨B, t, l⟩])) B).any
          (fun e => e.station = A ∧ e.line = l) = true) := by
        rw [edgesAt_set_ne _ _ _ _ hAB, any_target_line_iff]
        rintro ⟨w, hw⟩
        exact hc1 ((any_target_line_iff _ _ _).mpr ⟨w, hg B A l w hw⟩)
      rw [insertDirectedEdge_neg _ B A l t hmirror]
      exact doubleInsert_symm g A B l t hAB hg

theorem graph0_edges_nil (stations : List Station) (c : String) :
    edgesAt (stations.foldl (fun g s => smapSet g s.code []) ([] : StationGraph)) c
      = [] := by
  have := foldl_preserve (P := fun (g : StationGraph) => ∀ c, edgesAt g c = [])
    (fun g s => smapSet g s.code []) stations []
    (fun acc s _ hacc c => by
      by_cases h : s.code = c
      · subst h; exact edgesAt_set_self acc s.code []
      · rw [edgesAt_set_ne _ _ _ _ h]; exact hacc c)
    (fun c => by simp [edgesAt, smapFind?])
  exact this c

theorem buildGraph_symm (stations : List Station)
    (conns : List ConnectionWithTime) : SymGraph (buildGraph stations conns) := by
  unfold buildGraph
  refine foldl_preserve _ conns _ (fun acc conn _ hacc => ?_) ?_
  · cases h1 : smapFind? (stationIndex stations) conn.fromCode with
    | none => simpa [h1] using hacc
    | some s1 =>
      cases h2 : smapFind? (stationIndex stations) conn.toCode with
      | none => simpa [h1, h2] using hacc
      | some s2 =>
        simp only [h1, h2]
        exact addConnectionEdges_symm acc _ _ _ _ hacc
  · intro a b l w hx
    rw [graph0_edges_nil] at hx
    cases hx

theorem buildGraphEstimated_symm (calcTime : Station → Station → Nat)
    (stations : List Station) (conns : List Connection) :
    SymGraph (buildGraphEstimated calcTime stations conns) := by
  unfold buildGraphEstimated
  refine foldl_preserve _ conns _ (fun acc conn _ hacc => ?_) ?_
  · cases h1 : smapFind? (stationIndex stations) conn.fromCode with
    | none => simpa [h1] using hacc
    | some s1 =>
      cases h2 : smapFind? (stationIndex stations) conn.toCode with
      | none => simpa [h1, h2] using hacc
      | some s2 =>
        simp only [h1, h2]
        exact addConnectionEdges_symm acc _ _ _ _ hacc
  · intro a b l w hx
    rw [graph0_edges_nil] at hx
    cases hx

/-- C5: in any graph produced by either `buildGraph` variant, every directed
edge `(a → b, line l, weight w)` has a companion edge `(b → a, line l, weight
w)`, for every input station list and connection list (and, for the geometric
variant, every travel-time estimator). -/
theorem buildGraph_symmetry (stations : List Station)
    (conns : List ConnectionWithTime) (calcTime : Station → Station → Nat)
    (connsEst : List Connection) (a b l : String) (w : Nat) :
    ((⟨b, w, l⟩ : GraphEdge) ∈ edgesAt (buildGraph stations conns) a →
      (⟨a, w, l⟩ : GraphEdge) ∈ edgesAt (buildGraph stations conns) b) ∧
    ((⟨b, w, l⟩ : GraphEdge) ∈ edgesAt (buildGraphEstimated calcTime stations connsEst) a →
      (⟨a, w, l⟩ : GraphEdge) ∈ edgesAt (buildGraphEstimated calcTime stations connsEst) b) :=
  ⟨fun hx => buildGraph_symm stations conns a b l w hx,
   fun hx => buildGraphEstimated_symm calcTime stations connsEst a b l w hx⟩

theorem buildGraph_symmetry_witness :
    ((⟨"B", 5, "L1"⟩ : GraphEdge) ∈ edgesAt exGraph2 "A" ∧
      (⟨"A", 5, "L1"⟩ : GraphEdge) ∈ edgesAt exGraph2 "B") ∧
    ((⟨"B", 4, "L1"⟩ : GraphEdge) ∈ edgesAt exGraphEst "A" ∧
      (⟨"A", 4, "L1"⟩ : GraphEdge) ∈ edgesAt exGraphEst "B") :=
  ⟨⟨by decide,
    (buildGraph_symmetry exStations2 exConns2 (fun _ _ => 4) exConnsEst
        "A" "B" "L1" 5).1 (by decide)⟩,
   ⟨by decide,
    (buildGraph_symmetry exStations2 exConns2 (fun _ _ => 4) exConnsEst
        "A" "B" "L1" 4).2 (by decide)⟩⟩

/-! ## Claim C1: self-exclusion of origins -/

theorem contains_false_not_mem (l : List String) (a : String)
    (h : (l.contains a) = false) : a ∉ l := by
  induction l with
  | nil => simp
  | cons x xs ih =>
    simp only [List.contains_cons, Bool.or_eq_false_iff] at h
    intro hmem
    rcases List.mem_cons.mp hmem with h1 | h1
    · subst h1; simp at h
    · exact ih h.2 h1

/-- The Multi-Origin Aggregator removes every origin from its result list
(its final filter), in both modes. -/
theorem multiOrigin_self_exclusion (graph : StationGraph)
    (stationMap : SMap Station) (origins : List String) (maxTime : Nat)
    (mode : SearchMode) :
    ∀ r ∈ searchMultipleOriginsParallel graph stationMap origins maxTime mode,
      r.station.code ∉ origins := by
  intro r hr
  by_cases ho : origins = []
  · subst ho; simp [searchMultipleOriginsParallel] at hr
  · simp only [searchMultipleOriginsParallel, if_neg ho] at hr
    rw [mem_sortResultsByTime, List.mem_filter] at hr
    have h2 := hr.2
    simp only [Bool.not_eq_eq_eq_not, Bool.not_true] at h2
    exact contains_false_not_mem _ _ h2

/-- The Grouped Query Composer removes every group's origins from its result
list. -/
theorem groups_self_exclusion (graph : StationGraph) (stationMap : SMap Station)
    (groups : List OriginGroup) :
    ∀ r ∈ searchWithGroups graph stationMap groups,
      ∀ g ∈ groups, r.station.code ∉ g.origins := by
  intro r hr g hg
  cases groups with
  | nil => simp at hg
  | cons g1 gs =>
    cases gs with
    | nil =>
      have hr' : r ∈ searchMultipleOriginsParallel graph stationMap g1.origins
          g1.timeMinutes .or := by
        simpa [searchWithGroups] using hr
      rcases List.mem_cons.mp hg with h1 | h1
      · subst h1
        exact multiOrigin_self_exclusion graph stationMap g.origins g.timeMinutes .or r hr'
      · simp at h1
    | cons g2 gs2 =>
      simp only [searchWithGroups, List.map_cons, if_neg (by simp :
        ¬(g1 :: g2 :: gs2 = []))] at hr
      rw [mem_sortResultsByTime, List.mem_filter] at hr
      have h2 := hr.2
      simp only [Bool.not_eq_eq_eq_not, Bool.not_true] at h2
      have hnot := contains_false_not_mem _ _ h2
      intro hmem
      exact hnot (by
        rw [List.mem_flatten]
        exact ⟨g.origins, List.mem_map_of_mem _ hg, hmem⟩)

/-- C1 counterexample: self-exclusion fails for `searchReachableStations`
itself — the origin station is returned as a result (at total time 0). -/
theorem searchReachable_includes_origin :
    ∃ r ∈ searchReachableStations exGraph2 exMap2 "A" 0, r.station.code = "A" := by
  decide

/-- C1 (amended): no result's station code equals any supplied origin code in
multi-origin (`searchMultipleOriginsParallel`, both modes) and grouped
(`searchWithGroups`) queries; `searchReachableStations` itself includes the
origin (at time 0) and relies on these callers to filter it out. -/
theorem self_exclusion_aggregators (graph : StationGraph)
    (stationMap : SMap Station) (origins : List String) (maxTime : Nat)
    (mode : SearchMode) (groups : List OriginGroup) :
    (∀ r ∈ searchMultipleOriginsParallel graph stationMap origins maxTime mode,
      r.station.code ∉ origins) ∧
    (∀ r ∈ searchWithGroups graph stationMap groups,
      ∀ g ∈ groups, r.station.code ∉ g.origins) :=
  ⟨multiOrigin_self_exclusion graph stationMap origins maxTime mode,
   groups_self_exclusion graph stationMap groups⟩

theorem self_exclusion_aggregators_witness :
    exOrResultB ∈ searchMultipleOriginsParallel exGraph2 exMap2 ["A"] 10 .or ∧
    exOrResultB.station.code ∉ ["A"] :=
  ⟨by decide,
   (self_exclusion_aggregators exGraph2 exMap2 ["A"] 10 .or []).1
     exOrResultB (by decide)⟩

/-! ## Claim C10: the implicit underscore precondition on station codes -/

theorem takeUntilUnderscore_append_left (l r : List Char) (h : '_' ∈ l) :
    takeUntilUnderscore (l ++ r) = takeUntilUnderscore l := by
  induction l with
  | nil => simp at h
  | cons x xs ih =>
    by_cases hx : x = '_'
    · subst hx; simp [takeUntilUnderscore]
    · have h' : '_' ∈ xs := by
        rcases List.mem_cons.mp h with h1 | h1
        · exact absurd h1.symm hx
        · exact h1
      simp [takeUntilUnderscore, hx, ih h']

theorem takeUntilUnderscore_ne (l : List Char) (h : '_' ∈ l) :
    takeUntilUnderscore l ≠ l := by
  induction l with
  | nil => simp at h
  | cons x xs ih =>
    by_cases hx : x = '_'
    · subst hx; simp [takeUntilUnderscore]
    · have h' : '_' ∈ xs := by
        rcases List.mem_cons.mp h with h1 | h1
        · exact absurd h1.symm hx
        · exact h1
      simp only [takeUntilUnderscore, if_neg hx, ne_eq, List.cons.injEq, not_and]
      intro _
      exact ih h'

theorem underscore_decomp (l : List Char) (h : '_' ∈ l) :
    ∃ b, l = takeUntilUnderscore l ++ '_' :: b ∧ '_' ∉ takeUntilUnderscore l := by
  induction l with
  | nil => simp at h
  | cons x xs ih =>
    by_cases hx : x = '_'
    · subst hx
      exact ⟨xs, by simp [takeUntilUnderscore], by simp [takeUntilUnderscore]⟩
    · have h' : '_' ∈ xs := by
        rcases List.mem_cons.mp h with h1 | h1
        · exact absurd h1.symm hx
        · exact h1
      obtain ⟨b, hb, hnb⟩ := ih h'
      refine ⟨b, ?_, ?_⟩
      · simp only [takeUntilUnderscore, if_neg hx, List.cons_append, List.cons.injEq]
        exact ⟨trivial, hb⟩
      · simp only [takeUntilUnderscore, if_neg hx, List.mem_cons, not_or]
        exact ⟨Ne.symm hx, hnb⟩

/-- C10: search states are encoded as the string `station + "_" + line`
(rendering the no-line sentinel as `"null"`), and route reconstruction
recovers the target station as the prefix before the first underscore.  For
underscore-free station codes the recovery is exact; for any station code
containing an underscore the recovery truncates, and a distinct (station,
line) pair collides onto the same state key.  Concretely, the search run over
a station `"B_C"` returns a reconstructed `RouteStep` with `toCode = "B"`. -/
theorem state_key_underscore_precondition :
    (∀ c l, noUnderscore c → splitHead (mkStateKey c l) = c) ∧
    (∀ c l, ¬ noUnderscore c →
      splitHead (mkStateKey c l) ≠ c ∧
      ∃ c₂ l₂, (c₂, l₂) ≠ (c, l) ∧ mkStateKey c₂ l₂ = mkStateKey c l) ∧
    (∃ r ∈ searchReachableStations exGraphU exMapU "A" 10,
      r.station.code = "B_C" ∧
      r.routesFromOrigins = some [("A", [⟨"A", "B", "StA", "StB", "LineU", 3⟩])]) := by
  refine ⟨splitHead_mkStateKey, ?_, by decide⟩
  intro c l hc
  have hmem : '_' ∈ c.data := by
    by_contra hn
    exact hc hn
  constructor
  · intro hEq
    have hdata : takeUntilUnderscore (mkStateKey c l).data = c.data :=
      congrArg String.data hEq
    rw [mkStateKey_data] at hdata
    rw [takeUntilUnderscore_append_left c.data ('_' :: (lineKeyStr l).data) hmem] at hdata
    exact takeUntilUnderscore_ne c.data hmem hdata
  · obtain ⟨b, hb, hnb⟩ := underscore_decomp c.data hmem
    refine ⟨⟨takeUntilUnderscore c.data⟩, some ⟨b ++ '_' :: (lineKeyStr l).data⟩, ?_, ?_⟩
    · intro hEq
      have hc2 : (⟨takeUntilUnderscore c.data⟩ : String) = c := congrArg Prod.fst hEq
      have : takeUntilUnderscore c.data = c.data := congrArg String.data hc2
      exact takeUntilUnderscore_ne c.data hmem this
    · apply stringDataInj
      rw [mkStateKey_data, mkStateKey_data]
      show takeUntilUnderscore c.data ++ '_' :: (b ++ '_' :: (lineKeyStr l).data)
        = c.data ++ '_' :: (lineKeyStr l).data
      conv_rhs => rw [hb]
      simp

theorem state_key_underscore_precondition_witness :
    (noUnderscore "AB" ∧ splitHead (mkStateKey "AB" (some "L")) = "AB") ∧
    (¬ noUnderscore "A_B" ∧ splitHead (mkStateKey "A_B" (some "L")) ≠ "A_B" ∧
      ∃ c₂ l₂, (c₂, l₂) ≠ ("A_B", some "L") ∧
        mkStateKey c₂ l₂ = mkStateKey "A_B" (some "L")) :=
  ⟨⟨by decide, state_key_underscore_precondition.1 "AB" (some "L") (by decide)⟩,
   ⟨by decide,
    (state_key_underscore_precondition.2.1 "A_B" (some "L") (by decide)).1,
    (state_key_underscore_precondition.2.1 "A_B" (some "L") (by decide)).2⟩⟩

/-! ## Claim C4: AND-mode semantics of the Multi-Origin Aggregator -/

theorem smapFind?_some_mem {α : Type} (m : SMap α) (k : String) (v : α)
    (h : smapFind? m k = some v) : (k, v) ∈ m := by
  induction m with
  | nil => simp [smapFind?] at h
  | cons p rest ih =>
    obtain ⟨k₀, v₀⟩ := p
    by_cases hk : k₀ = k
    · subst hk
      have h' : v₀ = v := by simpa [smapFind?] using h
      subst h'
      exact List.mem_cons_self _ _
    · simp only [smapFind?, if_neg hk] at h
      exact List.mem_cons_of_mem _ (ih h)

theorem fst_mem_smapKeys {α : Type} (m : SMap α) (p : String × α) (h : p ∈ m) :
    p.1 ∈ smapKeys m := List.mem_map_of_mem Prod.fst h

theorem mem_smapSet_iff {α : Type} (m : SMap α) (k : String) (v : α)
    (hnd : (smapKeys m).Nodup) (p : String × α) :
    p ∈ smapSet m k v ↔ p = (k, v) ∨ (p ∈ m ∧ p.1 ≠ k) := by
  induction m with
  | nil => simp [smapSet]
  | cons q rest ih =>
    obtain ⟨k₀, v₀⟩ := q
    simp only [smapKeys, List.map_cons, List.nodup_cons] at hnd
    by_cases hk : k₀ = k
    · subst hk
      have heq : smapSet ((k₀, v₀) :: rest) k₀ v = (k₀, v) :: rest := by
        simp [smapSet]
      rw [heq, List.mem_cons, List.mem_cons]
      constructor
      · rintro (h | h)
        · exact Or.inl h
        · refine Or.inr ⟨Or.inr h, ?_⟩
          intro hfst
          exact hnd.1 (hfst ▸ fst_mem_smapKeys rest p h)
      · rintro (h | ⟨hmem, hfst⟩)
        · exact Or.inl h
        · rcases hmem with h1 | h1
          · exact absurd (congrArg Prod.fst h1) hfst
          · exact Or.inr h1
    · have heq : smapSet ((k₀, v₀) :: rest) k v = (k₀, v₀) :: smapSet rest k v := by
        simp [smapSet, hk]
      rw [heq, List.mem_cons, ih hnd.2, List.mem_cons]
      constructor
      · rintro (h | h | h)
        · exact Or.inr ⟨Or.inl h, by rw [h]; exact hk⟩
        · exact Or.inl h
        · exact Or.inr ⟨Or.inr h.1, h.2⟩
      · rintro (h | ⟨hmem, hfst⟩)
        · exact Or.inr (Or.inl h)
        · rcases hmem with h1 | h1
          · exact Or.inl h1
          · exact Or.inr (Or.inr ⟨h1, hfst⟩)

theorem zip_self_map {α β : Type} (l : List α) (f : α → β) :
    l.zip (l.map f) = l.map (fun a => (a, f a)) := by
  induction l with
  | nil => rfl
  | cons x xs ih => simp [List.zip_cons_cons, ih]

theorem mergeExisting_station (existing : SearchResult) (o : String)
    (result : SearchResult) :
    (mergeExisting existing o result).station = existing.station := by
  unfold mergeExisting
  cases result.routesFromOrigins <;> dsimp only <;> split <;> rfl

theorem mergeExisting_times (existing : SearchResult) (o : String)
    (result : SearchResult) :
    (mergeExisting existing o result).timesFromOrigins
      = smapSet existing.timesFromOrigins o result.totalTime := by
  unfold mergeExisting
  cases result.routesFromOrigins <;> dsimp only <;> split <;> rfl

/-- One merge step preserves the soundness invariant of the merged map: every
entry's station code is its key, and every recorded per-origin time is the
total time of a result of that origin's single-origin search for the same
station code. -/
theorem mergeOriginResult_inv (graph : StationGraph) (stationMap : SMap Station)
    (origins : List String) (maxTime : Nat) (m : SMap SearchResult) (o : String)
    (result : SearchResult) (ho : o ∈ origins)
    (hres : result ∈ searchReachableStations graph stationMap o maxTime)
    (hnd : (smapKeys m).Nodup)
    (hgood : ∀ q ∈ m, q.2.station.code = q.1 ∧ ∀ o' t,
      smapFind? q.2.timesFromOrigins o' = some t → o' ∈ origins ∧
      ∃ res' ∈ searchReachableStations graph stationMap o' maxTime,
        res'.station.code = q.1 ∧ res'.totalTime = t) :
    (smapKeys (mergeOriginResult m o result)).Nodup ∧
    ∀ q ∈ mergeOriginResult m o result, q.2.station.code = q.1 ∧ ∀ o' t,
      smapFind? q.2.timesFromOrigins o' = some t → o' ∈ origins ∧
      ∃ res' ∈ searchReachableStations graph stationMap o' maxTime,
        res'.station.code = q.1 ∧ res'.totalTime = t := by
  unfold mergeOriginResult
  cases hfind : smapFind? m result.station.code with
  | some existing =>
    refine ⟨smapKeys_set_nodup _ _ _ hnd, ?_⟩
    intro q hq
    rw [mem_smapSet_iff _ _ _ hnd] at hq
    rcases hq with hq | ⟨hq, _⟩
    · subst hq
      have hgoodex := hgood _ (smapFind?_some_mem _ _ _ hfind)
      refine ⟨by rw [mergeExisting_station]; exact hgoodex.1, ?_⟩
      intro o' t ht
      rw [mergeExisting_times] at ht
      by_cases ho' : o = o'
      · subst ho'
        rw [smapFind?_set_self] at ht
        cases ht
        exact ⟨ho, result, hres, rfl, rfl⟩
      · rw [smapFind?_set_ne _ _ _ _ ho'] at ht
        exact hgoodex.2 o' t ht
    · exact hgood q hq
  | none =>
    refine ⟨smapKeys_set_nodup _ _ _ hnd, ?_⟩
    intro q hq
    rw [mem_smapSet_iff _ _ _ hnd] at hq
    rcases hq with hq | ⟨hq, _⟩
    · subst hq
      refine ⟨rfl, ?_⟩
      intro o' t ht
      simp only [smapFind?] at ht
      by_cases ho' : o = o'
      · subst ho'
        rw [if_pos rfl] at ht
        cases ht
        exact ⟨ho, result, hres, rfl, rfl⟩
      · rw [if_neg ho'] at ht
        simp [smapFind?] at ht
    · exact hgood q hq

/-- C4: for every result of an AND-mode multi-origin query, the station was
reached from every supplied origin (its `timesFromOrigins` has an entry for
each origin holding that origin's individual search time), every entry of
`timesFromOrigins` comes from one of the supplied origins' individual
searches, and the reported total time is the maximum of the per-origin
times. -/
theorem searchMultipleOrigins_and_semantics (graph : StationGraph)
    (stationMap : SMap Station) (origins : List String) (maxTime : Nat)
    (r : SearchResult)
    (hmem : r ∈ searchMultipleOriginsParallel graph stationMap origins maxTime .and) :
    (∀ o ∈ origins, ∃ res ∈ searchReachableStations graph stationMap o maxTime,
        res.station.code = r.station.code ∧
        smapFind? r.timesFromOrigins o = some res.totalTime) ∧
    (∀ o t, smapFind? r.timesFromOrigins o = some t → o ∈ origins ∧
        ∃ res ∈ searchReachableStations graph stationMap o maxTime,
          res.station.code = r.station.code ∧ res.totalTime = t) ∧
    r.totalTime = maxValues (r.timesFromOrigins.map Prod.snd) := by
  by_cases ho : origins = []
  · subst ho; simp [searchMultipleOriginsParallel] at hmem
  simp only [searchMultipleOriginsParallel, if_neg ho] at hmem
  rw [mem_sortResultsByTime, List.mem_filter] at hmem
  obtain ⟨hmem, -⟩ := hmem
  rw [List.mem_map] at hmem
  obtain ⟨r', hr', rfl⟩ := hmem
  rw [List.mem_filter] at hr'
  obtain ⟨hr'mem, hallcheck⟩ := hr'
  rw [List.mem_map] at hr'mem
  obtain ⟨p, hp, rfl⟩ := hr'mem
  have hInv := foldl_preserve
    (P := fun (m : SMap SearchResult) =>
      (smapKeys m).Nodup ∧
      ∀ q ∈ m, q.2.station.code = q.1 ∧ ∀ o' t,
        smapFind? q.2.timesFromOrigins o' = some t → o' ∈ origins ∧
        ∃ res' ∈ searchReachableStations graph stationMap o' maxTime,
          res'.station.code = q.1 ∧ res'.totalTime = t)
    (fun m pr => pr.2.foldl (fun m res => mergeOriginResult m pr.1 res) m)
    (origins.zip (origins.map
      (fun o => searchReachableStations graph stationMap o maxTime)))
    []
    (fun acc pr hpr hacc => by
      rw [zip_self_map, List.mem_map] at hpr
      obtain ⟨o, ho', rfl⟩ := hpr
      exact foldl_preserve
        (P := fun (m : SMap SearchResult) =>
          (smapKeys m).Nodup ∧
          ∀ q ∈ m, q.2.station.code = q.1 ∧ ∀ o' t,
            smapFind? q.2.timesFromOrigins o' = some t → o' ∈ origins ∧
            ∃ res' ∈ searchReachableStations graph stationMap o' maxTime,
              res'.station.code = q.1 ∧ res'.totalTime = t)
        _ _ acc
        (fun acc₂ res hres hacc₂ =>
          mergeOriginResult_inv graph stationMap origins maxTime acc₂ o res
            ho' hres hacc₂.1 hacc₂.2)
        hacc)
    ⟨List.nodup_nil, by simp⟩
  have hqgood := hInv.2 p hp
  refine ⟨?_, ?_, rfl⟩
  · intro o hoin
    have hsome : (smapFind? p.2.timesFromOrigins o).isSome := by
      rw [List.all_eq_true] at hallcheck
      exact hallcheck o hoin
    obtain ⟨t, ht⟩ := Option.isSome_iff_exists.mp hsome
    obtain ⟨-, res, hresmem, hrescode, hrest⟩ := hqgood.2 o t ht
    exact ⟨res, hresmem, by rw [hrescode, hqgood.1], by rw [ht, hrest]⟩
  · intro o t ht
    obtain ⟨hoin, res, hresmem, hrescode, hrest⟩ := hqgood.2 o t ht
    exact ⟨hoin, res, hresmem, by rw [hrescode, hqgood.1], hrest⟩

theorem searchMultipleOrigins_and_semantics_witness :
    exAndResultE ∈ searchMultipleOriginsParallel exGraph5 exMap5 ["A", "D"] 30 .and ∧
    exAndResultE.totalTime = maxValues (exAndResultE.timesFromOrigins.map Prod.snd) ∧
    smapFind? exAndResultE.timesFromOrigins "A" = some 10 ∧
    smapFind? exAndResultE.timesFromOrigins "D" = some 25 :=
  ⟨by decide,
   (searchMultipleOrigins_and_semantics exGraph5 exMap5 ["A", "D"] 30
       exAndResultE (by decide)).2.2,
   by decide, by decide⟩

/-! ## Claims C2 and C6: the search-loop invariant machinery -/

theorem smapFind?_of_mem_nodup {α : Type} (m : SMap α) (k : String) (v : α)
    (hnd : (smapKeys m).Nodup) (h : (k, v) ∈ m) : smapFind? m k = some v := by
  induction m with
  | nil => simp at h
  | cons q rest ih =>
    obtain ⟨k₀, v₀⟩ := q
    simp only [smapKeys, List.map_cons, List.nodup_cons] at hnd
    rcases List.mem_cons.mp h with h1 | h1
    · cases h1
      simp [smapFind?]
    · have hk : k₀ ≠ k := by
        intro hk
        exact hnd.1 (hk ▸ fst_mem_smapKeys rest (k, v) h1)
      simp only [smapFind?, if_neg hk]
      exact ih hnd.2 h1

theorem smapKeys_length {α : Type} (m : SMap α) : (smapKeys m).length = m.length :=
  List.length_map m Prod.fst

theorem smapSet_length {α : Type} (m : SMap α) (k : String) (v : α) :
    (smapSet m k v).length = if k ∈ smapKeys m then m.length else m.length + 1 := by
  have h := congrArg List.length (smapKeys_set m k v)
  rw [smapKeys_length] at h
  by_cases hk : k ∈ smapKeys m
  · rw [if_pos hk]
    rw [if_pos hk] at h
    rw [h, smapKeys_length]
  · rw [if_neg hk]
    rw [if_neg hk] at h
    rw [h, List.length_append, smapKeys_length]
    rfl

theorem sum_values_set_fresh {α : Type} (f : α → Nat) (m : SMap α) (k : String)
    (v : α) (hk : k ∉ smapKeys m) :
    ((smapSet m k v).map (fun p => f p.2)).sum
      = (m.map (fun p => f p.2)).sum + f v := by
  induction m with
  | nil => simp [smapSet]
  | cons q rest ih =>
    obtain ⟨k₀, v₀⟩ := q
    simp only [smapKeys, List.map_cons, List.mem_cons, not_or] at hk
    have hne : ¬ k₀ = k := fun h => hk.1 h.symm
    have heq : smapSet ((k₀, v₀) :: rest) k v = (k₀, v₀) :: smapSet rest k v := by
      simp [smapSet, hne]
    rw [heq, List.map_cons, List.map_cons, List.sum_cons, List.sum_cons,
      ih (by simpa [smapKeys] using hk.2)]
    omega

theorem sum_values_set_existing {α : Type} (f : α → Nat) (m : SMap α) (k : String)
    (v v₀ : α) (hnd : (smapKeys m).Nodup) (hfind : smapFind? m k = some v₀) :
    ((smapSet m k v).map (fun p => f p.2)).sum + f v₀
      = (m.map (fun p => f p.2)).sum + f v := by
  induction m with
  | nil => simp [smapFind?] at hfind
  | cons q rest ih =>
    obtain ⟨k₀, v₀'⟩ := q
    simp only [smapKeys, List.map_cons, List.nodup_cons] at hnd
    by_cases hk : k₀ = k
    · subst hk
      have hv : v₀' = v₀ := by simpa [smapFind?] using hfind
      subst hv
      have heq : smapSet ((k₀, v₀') :: rest) k₀ v = (k₀, v) :: rest := by
        simp [smapSet]
      rw [heq, List.map_cons, List.map_cons, List.sum_cons, List.sum_cons]
      dsimp only
      omega
    · simp only [smapFind?, if_neg hk] at hfind
      have heq : smapSet ((k₀, v₀') :: rest) k v = (k₀, v₀') :: smapSet rest k v := by
        simp [smapSet, hk]
      rw [heq, List.map_cons, List.map_cons, List.sum_cons, List.sum_cons]
      have := ih hnd.2 hfind
      dsimp only
      omega

theorem goodGraph_edge (graph : StationGraph) (hg : GoodGraph graph) (c : String)
    (e : GraphEdge) (he : e ∈ edgesAt graph c) :
    noUnderscore e.station ∧ e.line ≠ "null" ∧ e.line ≠ "" := by
  unfold edgesAt at he
  cases hfind : smapFind? graph c with
  | none => rw [hfind] at he; simp at he
  | some es =>
    rw [hfind] at he
    simp only [Option.getD_some] at he
    exact hg (c, es) (smapFind?_some_mem _ _ _ hfind) e he

theorem target_mem_allStateKeys (graph : StationGraph) (originCode : String)
    (c : String) (e : GraphEdge) (he : e ∈ edgesAt graph c) :
    mkStateKey e.station (some e.line) ∈ allStateKeys graph originCode := by
  unfold edgesAt at he
  cases hfind : smapFind? graph c with
  | none => rw [hfind] at he; simp at he
  | some es =>
    rw [hfind] at he
    simp only [Option.getD_some] at he
    unfold allStateKeys
    refine List.mem_cons_of_mem _ ?_
    rw [List.mem_flatten]
    refine ⟨es.map (fun e => mkStateKey e.station (some e.line)), ?_, ?_⟩
    · rw [List.mem_map]
      exact ⟨(c, es), smapFind?_some_mem _ _ _ hfind, rfl⟩
    · exact List.mem_map_of_mem _ he

theorem allStateKeys_length (graph : StationGraph) (originCode : String) :
    (allStateKeys graph originCode).length = 1 + totalEdgeCount graph := by
  unfold allStateKeys totalEdgeCount
  induction graph with
  | nil => rfl
  | cons p rest ih =>
    simp only [List.map_cons, List.flatten_cons, List.length_cons,
      List.length_append, List.length_map, List.sum_cons] at *
    omega

theorem expandedAt_mono (graph : StationGraph) (stationMap : SMap Station)
    (maxTime : Nat) (D D' : SMap Nat) (hmono : DMono D D') (k : String) (v : Nat)
    (h : ExpandedAt graph stationMap maxTime D k v) :
    ExpandedAt graph stationMap maxTime D' k v := by
  obtain ⟨s, l, hk, hs, hl, hcase⟩ := h
  refine ⟨s, l, hk, hs, hl, ?_⟩
  rcases hcase with h1 | h1 | ⟨station, hst, hrelax⟩
  · exact Or.inl h1
  · exact Or.inr (Or.inl h1)
  · refine Or.inr (Or.inr ⟨station, hst, fun e he => ?_⟩)
    rcases hrelax e he with h2 | ⟨v', hv', hle⟩
    · exact Or.inl h2
    · obtain ⟨v'', hv'', hle''⟩ := hmono _ _ hv'
      exact Or.inr ⟨v'', hv'', le_trans hle'' hle⟩

theorem dmono_refl (D : SMap Nat) : DMono D D :=
  fun k v h => ⟨v, h, le_refl v⟩

theorem dmono_trans {D₁ D₂ D₃ : SMap Nat} (h₁ : DMono D₁ D₂) (h₂ : DMono D₂ D₃) :
    DMono D₁ D₃ := by
  intro k v h
  obtain ⟨v', hv', hle'⟩ := h₁ k v h
  obtain ⟨v'', hv'', hle''⟩ := h₂ k v' hv'
  exact ⟨v'', hv'', le_trans hle'' hle'⟩

theorem dmono_set_improved (D : SMap Nat) (k : String) (v : Nat)
    (himp : ∀ t, smapFind? D k = some t → v ≤ t) : DMono D (smapSet D k v) := by
  intro k' v' h
  by_cases hk : k = k'
  · subst hk
    exact ⟨v, smapFind?_set_self _ _ _, himp v' h⟩
  · exact ⟨v', by rw [smapFind?_set_ne _ _ _ _ hk]; exact h, le_refl v'⟩

theorem stateImproved_iff (st : SearchState) (k : String) (nt : Nat) :
    stateImproved st k nt = true ↔
      ∀ t, smapFind? st.stateDistances k = some t → nt < t := by
  unfold stateImproved
  cases h : smapFind? st.stateDistances k <;> simp [h]

theorem stationImproved_iff (st : SearchState) (c : String) (nt : Nat) :
    stationImproved st c nt = true ↔
      ∀ t, smapFind? st.stationDistances c = some t → nt < t := by
  unfold stationImproved
  cases h : smapFind? st.stationDistances c <;> simp [h]

theorem mem_heapPush (h : List QueueEntry) (e x : QueueEntry) :
    x ∈ heapPush h e ↔ x = e ∨ x ∈ h := by
  rw [(heapPush_perm h e).mem_iff, List.mem_cons]

theorem heapPush_length (h : List QueueEntry) (e : QueueEntry) :
    (heapPush h e).length = h.length + 1 := by
  simpa using (heapPush_perm h e).length_eq

theorem chain_distance (P : SMap PathInfo) (D : SMap Nat) (initKey : String)
    (hstep : ∀ k info ps, smapFind? P k = some info → info.prevStation = some ps →
      ∃ dπ dk, smapFind? D (mkStateKey ps info.prevLine) = some dπ ∧
        smapFind? D k = some dk ∧ dπ ≤ dk) :
    ∀ lst k dk, ChainTo P initKey lst k → smapFind? D k = some dk →
      ∀ x ∈ lst, ∃ dx, smapFind? D x = some dx ∧ dx ≤ dk := by
  intro lst
  induction lst with
  | nil => intro k dk _ _ x hx; simp at hx
  | cons π rest ih =>
    intro k dk hchain hDk x hx
    obtain ⟨⟨info, hinfo, ps, hps, hπ⟩, hrest⟩ := hchain
    obtain ⟨dπ, dk', hDπ, hDk', hle⟩ := hstep k info ps hinfo hps
    rw [hDk] at hDk'
    cases hDk'
    rw [← hπ] at hDπ
    rcases List.mem_cons.mp hx with h1 | h1
    · subst h1; exact ⟨dπ, hDπ, hle⟩
    · obtain ⟨dx, hdx, hdxle⟩ := ih π dπ hrest hDπ x h1
      exact ⟨dx, hdx, le_trans hdxle hle⟩

theorem chain_lift_avoid (P P' : SMap PathInfo) (initKey k₀ : String)
    (hagree : ∀ k, k ≠ k₀ → smapFind? P' k = smapFind? P k) :
    ∀ lst k, ChainTo P initKey lst k → k ≠ k₀ → (∀ x ∈ lst, x ≠ k₀) →
      ChainTo P' initKey lst k := by
  intro lst
  induction lst with
  | nil => intro k h _ _; exact h
  | cons π rest ih =>
    intro k hchain hk havoid
    obtain ⟨⟨info, hinfo, ps, hps, hπ⟩, hrest⟩ := hchain
    refine ⟨⟨info, by rw [hagree k hk]; exact hinfo, ps, hps, hπ⟩, ?_⟩
    exact ih π hrest (havoid π (List.mem_cons_self _ _))
      (fun x hx => havoid x (List.mem_cons_of_mem _ hx))

theorem chain_update (P P' : SMap PathInfo) (initKey k₀ : String)
    (hagree : ∀ k, k ≠ k₀ → smapFind? P' k = smapFind? P k)
    (hk₀ : ∃ lst₀, ChainTo P' initKey lst₀ k₀) :
    ∀ lst k, ChainTo P initKey lst k → ∃ lst', ChainTo P' initKey lst' k := by
  intro lst
  induction lst with
  | nil => intro k hk; exact ⟨[], hk⟩
  | cons π rest ih =>
    intro k hk
    by_cases hkk : k = k₀
    · subst hkk; exact hk₀
    · obtain ⟨⟨info, hinfo, ps, hps, hπ⟩, hrest⟩ := hk
      obtain ⟨lst', hlst'⟩ := ih π hrest
      exact ⟨π :: lst', ⟨info, by rw [hagree k hkk]; exact hinfo, ps, hps, hπ⟩, hlst'⟩

theorem chain_suffix (P : SMap PathInfo) (initKey : String) :
    ∀ (pre : List String) (lst : List String) (k y : String) (post : List String),
      ChainTo P initKey lst k → lst = pre ++ y :: post →
      ChainTo P initKey post y := by
  intro pre
  induction pre with
  | nil =>
    intro lst k y post hchain heq
    subst heq
    exact hchain.2
  | cons p pre ih =>
    intro lst k y post hchain heq
    subst heq
    exact ih _ p y post hchain.2 rfl

theorem chain_unique (P : SMap PathInfo) (initKey : String)
    (hinit : ∃ i, smapFind? P initKey = some i ∧ i.prevStation = none) :
    ∀ (lst lst' : List String) (k : String),
      ChainTo P initKey lst k → ChainTo P initKey lst' k → lst = lst' := by
  intro lst
  induction lst with
  | nil =>
    intro lst' k h h'
    subst h
    cases lst' with
    | nil => rfl
    | cons π rest =>
      obtain ⟨⟨info, hinfo, ps, hps, hπ⟩, _⟩ := h'
      obtain ⟨i, hi, hips⟩ := hinit
      rw [hi] at hinfo
      injection hinfo with hh
      rw [← hh] at hps
      rw [hips] at hps
      exact Option.noConfusion hps
  | cons π rest ih =>
    intro lst' k h h'
    cases lst' with
    | nil =>
      subst h'
      obtain ⟨⟨info, hinfo, ps, hps, hπ⟩, _⟩ := h
      obtain ⟨i, hi, hips⟩ := hinit
      rw [hi] at hinfo
      injection hinfo with hh
      rw [← hh] at hps
      rw [hips] at hps
      exact Option.noConfusion hps
    | cons π' rest' =>
      obtain ⟨⟨info, hinfo, ps, hps, hπ⟩, hr⟩ := h
      obtain ⟨⟨info', hinfo', ps', hps', hπ'⟩, hr'⟩ := h'
      rw [hinfo] at hinfo'
      injection hinfo' with hh
      rw [← hh] at hps'
      rw [hps] at hps'
      injection hps' with hpss
      rw [← hh] at hπ'
      rw [← hpss] at hπ'
      have hππ : π = π' := by rw [hπ, hπ']
      subst hππ
      rw [ih rest' π hr hr']

theorem chain_graft (P P' : SMap PathInfo) (initKey x : String)
    (tail : List String) (hx : ChainTo P' initKey tail x) :
    ∀ (pre : List String) (k : String) (post : List String),
      ChainTo P initKey (pre ++ x :: post) k →
      (∀ y ∈ k :: pre, smapFind? P' y = smapFind? P y) →
      ChainTo P' initKey (pre ++ x :: tail) k := by
  intro pre
  induction pre with
  | nil =>
    intro k post hchain hagree
    obtain ⟨⟨info, hinfo, ps, hps, hπ⟩, _⟩ := hchain
    exact ⟨⟨info, by rw [hagree k (List.mem_cons_self _ _)]; exact hinfo,
      ps, hps, hπ⟩, hx⟩
  | cons p pre ih =>
    intro k post hchain hagree
    obtain ⟨⟨info, hinfo, ps, hps, hπ⟩, hrest⟩ := hchain
    refine ⟨⟨info, by rw [hagree k (List.mem_cons_self _ _)]; exact hinfo,
      ps, hps, hπ⟩, ?_⟩
    exact ih p post hrest (fun y hy => hagree y (List.mem_cons_of_mem _ hy))

theorem chain_update_nodup (P P' : SMap PathInfo) (initKey tk curKey : String)
    (lstc : List String)
    (hagree : ∀ k, k ≠ tk → smapFind? P' k = smapFind? P k)
    (hinit : ∃ i, smapFind? P initKey = some i ∧ i.prevStation = none)
    (hc : ChainTo P initKey lstc curKey)
    (havoid : ∀ x ∈ lstc, x ≠ tk)
    (hnewtail : ChainTo P' initKey (curKey :: lstc) tk)
    (hndnew : (tk :: curKey :: lstc).Nodup) :
    ∀ (lst : List String) (k : String), k ≠ tk → ChainTo P initKey lst k →
      (k :: lst).Nodup →
      ∃ lst', ChainTo P' initKey lst' k ∧ (k :: lst').Nodup := by
  intro lst k hk hchain hnd
  by_cases htkin : tk ∈ lst
  · obtain ⟨pre, post, hsplit⟩ := List.append_of_mem htkin
    subst hsplit
    have hndA : ((k :: pre) ++ tk :: post).Nodup := hnd
    have hpre_ne : ∀ y ∈ k :: pre, y ≠ tk := by
      intro y hy hyt
      have h1 : tk ∈ tk :: post := List.mem_cons_self _ _
      exact (List.disjoint_of_nodup_append hndA) (hyt ▸ hy) h1
    have hagree' : ∀ y ∈ k :: pre, smapFind? P' y = smapFind? P y :=
      fun y hy => hagree y (hpre_ne y hy)
    refine ⟨pre ++ tk :: (curKey :: lstc),
      chain_graft P P' initKey tk (curKey :: lstc) hnewtail pre k post hchain
        hagree', ?_⟩
    have hgoal : ((k :: pre) ++ tk :: curKey :: lstc).Nodup := by
      rw [List.nodup_append]
      refine ⟨hndA.of_append_left, hndnew, ?_⟩
      intro y hyA hyT
      rcases List.mem_cons.mp hyT with hyt | hyC
      · exact hpre_ne y hyA hyt
      · have h1 : ∃ ly, ChainTo P initKey ly y ∧ tk ∈ ly := by
          rcases List.mem_cons.mp hyA with hyk | hy'
          · subst hyk
            exact ⟨pre ++ tk :: post, hchain, by simp⟩
          · obtain ⟨a, b, hab⟩ := List.append_of_mem hy'
            refine ⟨b ++ tk :: post, ?_, by simp⟩
            refine chain_suffix P initKey a _ k y _ hchain ?_
            rw [hab]
            simp
        have h2 : ∃ ly, ChainTo P initKey ly y ∧ tk ∉ ly := by
          rcases List.mem_cons.mp hyC with hyc | hy'
          · subst hyc
            exact ⟨lstc, hc, fun h => havoid tk h rfl⟩
          · obtain ⟨a, b, hab⟩ := List.append_of_mem hy'
            refine ⟨b, chain_suffix P initKey a lstc curKey y b hc hab, ?_⟩
            intro h
            refine havoid tk ?_ rfl
            rw [hab]
            exact List.mem_append.mpr (Or.inr (List.mem_cons_of_mem _ h))
        obtain ⟨l1, hl1, htk1⟩ := h1
        obtain ⟨l2, hl2, htk2⟩ := h2
        rw [chain_unique P initKey hinit l1 l2 y hl1 hl2] at htk1
        exact htk2 htk1
    exact hgoal
  · exact ⟨lst, chain_lift_avoid P P' initKey tk hagree lst k hchain hk
      (fun x hx hxx => htkin (hxx ▸ hx)), hnd⟩

theorem relaxEdge_spec (maxTime : Nat) (cur : QueueEntry) (cs : Station)
    (st : SearchState) (e : GraphEdge) :
    (relaxEdge maxTime cur cs st e = st ∧
      (maxTime < cur.totalTime + segmentTime cur.lineCode cs e ∨
        ∃ t, smapFind? st.stateDistances (mkStateKey e.station (some e.line))
            = some t ∧
          t ≤ cur.totalTime + segmentTime cur.lineCode cs e)) ∨
    (¬ maxTime < cur.totalTime + segmentTime cur.lineCode cs e ∧
      (∀ t, smapFind? st.stateDistances (mkStateKey e.station (some e.line))
          = some t →
        cur.totalTime + segmentTime cur.lineCode cs e < t) ∧
      relaxEdge maxTime cur cs st e =
        { stateDistances := smapSet st.stateDistances
            (mkStateKey e.station (some e.line))
            (cur.totalTime + segmentTime cur.lineCode cs e)
          pathMap := smapSet st.pathMap (mkStateKey e.station (some e.line))
            ⟨some cur.stationCode, cur.lineCode, some e.line,
              segmentTime cur.lineCode cs e⟩
          stationDistances :=
            if stationImproved st e.station
                (cur.totalTime + segmentTime cur.lineCode cs e) then
              smapSet st.stationDistances e.station
                (cur.totalTime + segmentTime cur.lineCode cs e)
            else st.stationDistances
          bestStateForStation :=
            if stationImproved st e.station
                (cur.totalTime + segmentTime cur.lineCode cs e) then
              smapSet st.bestStateForStation e.station
                (mkStateKey e.station (some e.line))
            else st.bestStateForStation
          queue := heapPush st.queue
            ⟨e.station, some e.line,
              cur.totalTime + segmentTime cur.lineCode cs e⟩ }) := by
  unfold relaxEdge
  by_cases h1 : cur.totalTime + segmentTime cur.lineCode cs e > maxTime
  · rw [if_pos h1]
    exact Or.inl ⟨rfl, Or.inl h1⟩
  · rw [if_neg h1]
    by_cases h2 : stateImproved st (mkStateKey e.station (some e.line))
        (cur.totalTime + segmentTime cur.lineCode cs e) = true
    · rw [if_pos h2]
      exact Or.inr ⟨h1, (stateImproved_iff _ _ _).mp h2, rfl⟩
    · rw [if_neg h2]
      refine Or.inl ⟨rfl, Or.inr ?_⟩
      unfold stateImproved at h2
      cases hf : smapFind? st.stateDistances (mkStateKey e.station (some e.line)) with
      | none => rw [hf] at h2; simp at h2
      | some t =>
        rw [hf] at h2
        exact ⟨t, rfl, by simpa using h2⟩

theorem statePotential_set_fresh (maxTime : Nat) (graph : StationGraph)
    (originCode : String) (sd : SMap Nat) (k : String) (v : Nat)
    (hk : k ∉ smapKeys sd) (hnd : (smapKeys sd).Nodup)
    (hsub : ∀ k' ∈ smapKeys sd, k' ∈ allStateKeys graph originCode)
    (hkin : k ∈ allStateKeys graph originCode) (hv : v ≤ maxTime) :
    statePotential maxTime graph (smapSet sd k v) + 1
      ≤ statePotential maxTime graph sd := by
  have hnd' : (smapKeys sd ++ [k]).Nodup := by
    simp [List.nodup_append, hnd, hk]
  have hsub' : (smapKeys sd ++ [k]) ⊆ allStateKeys graph originCode := by
    intro x hx
    rcases List.mem_append.mp hx with h | h
    · exact hsub x h
    · simp only [List.mem_singleton] at h
      exact h ▸ hkin
  have hlen : sd.length + 1 ≤ 1 + totalEdgeCount graph := by
    have hle := (hnd'.subperm hsub').length_le
    rw [allStateKeys_length] at hle
    simpa [smapKeys_length] using hle
  have hsum : ((smapSet sd k v).map Prod.snd).sum = (sd.map Prod.snd).sum + v :=
    sum_values_set_fresh (fun x => x) sd k v hk
  have hlength : (smapSet sd k v).length = sd.length + 1 := by
    rw [smapSet_length, if_neg hk]
  unfold statePotential
  rw [hsum, hlength]
  have hB : (maxTime + 1) * (1 + totalEdgeCount graph - sd.length)
      = (maxTime + 1) * (1 + totalEdgeCount graph - (sd.length + 1)) + (maxTime + 1) := by
    rw [← Nat.mul_succ]
    congr 1
    omega
  omega

theorem statePotential_set_existing (maxTime : Nat) (graph : StationGraph)
    (sd : SMap Nat) (k : String) (v v₀ : Nat) (hnd : (smapKeys sd).Nodup)
    (hfind : smapFind? sd k = some v₀) (hlt : v < v₀) :
    statePotential maxTime graph (smapSet sd k v) + 1
      ≤ statePotential maxTime graph sd := by
  have hsum : ((smapSet sd k v).map Prod.snd).sum + v₀ = (sd.map Prod.snd).sum + v :=
    sum_values_set_existing (fun x => x) sd k v v₀ hnd hfind
  have hmem : k ∈ smapKeys sd := by
    rw [← smapFind?_isSome_iff_mem, hfind]
    rfl
  have hlength : (smapSet sd k v).length = sd.length := by
    rw [smapSet_length, if_pos hmem]
  unfold statePotential
  rw [hlength]
  omega

/-- Master lemma for one edge relaxation: it preserves the fold invariant,
establishes the relaxed-edge property for the processed edge, only ever
lowers recorded distances, and does not increase the termination measure. -/
theorem relaxEdge_master (graph : StationGraph) (stationMap : SMap Station)
    (maxTime : Nat) (originCode : String) (cur : QueueEntry) (cs : Station)
    (st : SearchState) (e : GraphEdge)
    (hctx : RelaxCtx graph stationMap maxTime originCode cur cs)
    (he : e ∈ edgesAt graph cur.stationCode)
    (hinv : FoldInv graph stationMap maxTime originCode cur st) :
    FoldInv graph stationMap maxTime originCode cur (relaxEdge maxTime cur cs st e) ∧
    RelaxedOne graph maxTime cur cs (relaxEdge maxTime cur cs st e).stateDistances e ∧
    DMono st.stateDistances (relaxEdge maxTime cur cs st e).stateDistances ∧
    searchMeasure maxTime graph (relaxEdge maxTime cur cs st e)
      ≤ searchMeasure maxTime graph st := by
  obtain ⟨hcore, hcurD, hqoe⟩ := hinv
  rcases relaxEdge_spec maxTime cur cs st e with ⟨heq, hreason⟩ | ⟨hbud, himp, heq⟩
  · rw [heq]
    refine ⟨⟨hcore, hcurD, hqoe⟩, ?_, dmono_refl _, le_refl _⟩
    rcases hreason with h | ⟨t, ht, hle⟩
    · exact Or.inl h
    · exact Or.inr ⟨t, ht, hle⟩
  · obtain ⟨hndD, hndSD, hkeysSub, hleMax, hinitD, hinitP, hdomPD, hpathGood,
      hqueueWf, hwalkD, hsdTracks, hstationBest, hchains⟩ := hcore
    rw [heq]
    set nt := cur.totalTime + segmentTime cur.lineCode cs e with hnt
    set tk := mkStateKey e.station (some e.line) with htk
    obtain ⟨hgE_u, hgE_null, hgE_empty⟩ :=
      goodGraph_edge graph hctx.hgraph cur.stationCode e he
    have hwfl_e : wfLineOpt (some e.line) := by
      intro s hs
      injection hs with h
      exact h ▸ hgE_null
    have hntle : nt ≤ maxTime := Nat.le_of_not_lt hbud
    have htkin : tk ∈ allStateKeys graph originCode := by
      rw [htk]
      exact target_mem_allStateKeys graph originCode cur.stationCode e he
    have hwalkNew : WalkTo graph stationMap originCode e.station (some e.line) nt :=
      WalkTo.step cur.stationCode cur.lineCode cur.totalTime cs e
        hctx.hwalk hctx.hstation he
    have hne_cur : mkStateKey cur.stationCode cur.lineCode ≠ tk := by
      intro hkey
      have h1 := himp cur.totalTime (by rw [← hkey]; exact hcurD)
      omega
    have hne_init : mkStateKey originCode none ≠ tk := by
      rw [htk]
      intro hkey
      obtain ⟨_, hl⟩ := mkStateKey_inj originCode e.station none (some e.line)
        hctx.horigin hgE_u (fun s hs => Option.noConfusion hs) hwfl_e hkey
      exact Option.noConfusion hl
    have hmono : DMono st.stateDistances (smapSet st.stateDistances tk nt) :=
      dmono_set_improved st.stateDistances tk nt (fun t ht => Nat.le_of_lt (himp t ht))
    have hndD' : (smapKeys (smapSet st.stateDistances tk nt)).Nodup :=
      smapKeys_set_nodup _ _ _ hndD
    have hkeysSub' : ∀ k ∈ smapKeys (smapSet st.stateDistances tk nt),
        k ∈ allStateKeys graph originCode := by
      intro k hk
      rw [smapKeys_set] at hk
      by_cases hmem : tk ∈ smapKeys st.stateDistances
      · rw [if_pos hmem] at hk
        exact hkeysSub k hk
      · rw [if_neg hmem] at hk
        rcases List.mem_append.mp hk with h | h
        · exact hkeysSub k h
        · simp only [List.mem_singleton] at h
          exact h ▸ htkin
    have hleMax' : ∀ p ∈ smapSet st.stateDistances tk nt, p.2 ≤ maxTime := by
      intro p hp
      rcases (mem_smapSet_iff st.stateDistances tk nt hndD p).mp hp with h | ⟨h, _⟩
      · subst h
        exact hntle
      · exact hleMax p h
    have hinitD' : smapFind? (smapSet st.stateDistances tk nt)
        (mkStateKey originCode none) = some 0 := by
      rw [smapFind?_set_ne _ _ _ _ (Ne.symm hne_init)]
      exact hinitD
    have hinitP' : smapFind? (smapSet st.pathMap tk
        ⟨some cur.stationCode, cur.lineCode, some e.line,
          segmentTime cur.lineCode cs e⟩)
        (mkStateKey originCode none) = some ⟨none, none, none, 0⟩ := by
      rw [smapFind?_set_ne _ _ _ _ (Ne.symm hne_init)]
      exact hinitP
    have hdomPD' : ∀ k, (smapFind? (smapSet st.pathMap tk
        ⟨some cur.stationCode, cur.lineCode, some e.line,
          segmentTime cur.lineCode cs e⟩) k).isSome
        ↔ (smapFind? (smapSet st.stateDistances tk nt) k).isSome := by
      intro k
      by_cases hk : tk = k
      · subst hk
        rw [smapFind?_set_self, smapFind?_set_self]
        simp
      · rw [smapFind?_set_ne _ _ _ _ hk, smapFind?_set_ne _ _ _ _ hk]
        exact hdomPD k
    have hpathGood' : ∀ k info,
        smapFind? (smapSet st.pathMap tk
          ⟨some cur.stationCode, cur.lineCode, some e.line,
            segmentTime cur.lineCode cs e⟩) k = some info →
        k ≠ mkStateKey originCode none →
        ∃ ps pl pStation eg dπ dk,
          info = ⟨some ps, pl, some eg.line, segmentTime pl pStation eg⟩ ∧
          smapFind? stationMap ps = some pStation ∧ eg ∈ edgesAt graph ps ∧
          k = mkStateKey eg.station (some eg.line) ∧
          noUnderscore ps ∧ wfLineOpt pl ∧
          smapFind? (smapSet st.stateDistances tk nt) (mkStateKey ps pl) = some dπ ∧
          smapFind? (smapSet st.stateDistances tk nt) k = some dk ∧
          dπ + segmentTime pl pStation eg ≤ dk := by
      intro k info hfind hkinit
      by_cases hk : tk = k
      · subst hk
        rw [smapFind?_set_self] at hfind
        injection hfind with h
        subst h
        refine ⟨cur.stationCode, cur.lineCode, cs, e, cur.totalTime, nt, rfl,
          hctx.hstation, he, htk, hctx.hwf, hctx.hwfl, ?_,
          smapFind?_set_self _ _ _, le_refl _⟩
        rw [smapFind?_set_ne _ _ _ _ (Ne.symm hne_cur)]
        exact hcurD
      · rw [smapFind?_set_ne _ _ _ _ hk] at hfind
        obtain ⟨ps, pl, pStation, eg, dπ, dk, hinfo, hpst, hpe, hkk, hpu, hpl,
          hDπ, hDk, hle⟩ := hpathGood k info hfind hkinit
        obtain ⟨dπ', hdπ', hdπle⟩ := hmono _ _ hDπ
        refine ⟨ps, pl, pStation, eg, dπ', dk, hinfo, hpst, hpe, hkk, hpu, hpl,
          hdπ', ?_, ?_⟩
        · rw [smapFind?_set_ne _ _ _ _ hk]
          exact hDk
        · omega
    have hqueueWf' : ∀ q ∈ heapPush st.queue ⟨e.station, some e.line, nt⟩,
        noUnderscore q.stationCode ∧ wfLineOpt q.lineCode ∧
        WalkTo graph stationMap originCode q.stationCode q.lineCode q.totalTime ∧
        ∃ v, smapFind? (smapSet st.stateDistances tk nt)
            (mkStateKey q.stationCode q.lineCode) = some v ∧ v ≤ q.totalTime := by
      intro q hq
      rcases (mem_heapPush _ _ _).mp hq with h | h
      · subst h
        exact ⟨hgE_u, hwfl_e, hwalkNew, nt, smapFind?_set_self _ _ _, le_refl _⟩
      · obtain ⟨hu, hl, hw, v, hv, hvle⟩ := hqueueWf q h
        obtain ⟨v', hv', hle'⟩ := hmono _ _ hv
        exact ⟨hu, hl, hw, v', hv', le_trans hle' hvle⟩
    have hwalkD' : ∀ k v, smapFind? (smapSet st.stateDistances tk nt) k = some v →
        ∃ s l, k = mkStateKey s l ∧ noUnderscore s ∧ wfLineOpt l ∧
          WalkTo graph stationMap originCode s l v := by
      intro k v hkv
      by_cases hk : tk = k
      · subst hk
        rw [smapFind?_set_self] at hkv
        injection hkv with h
        subst h
        exact ⟨e.station, some e.line, htk, hgE_u, hwfl_e, hwalkNew⟩
      · rw [smapFind?_set_ne _ _ _ _ hk] at hkv
        exact hwalkD k v hkv
    have hsdTracksT : stationImproved st e.station nt = true →
        ∀ k v, smapFind? (smapSet st.stateDistances tk nt) k = some v →
        ∀ s l, k = mkStateKey s l → noUnderscore s → wfLineOpt l →
          ∃ t, smapFind? (smapSet st.stationDistances e.station nt) s = some t ∧
            t ≤ v := by
      intro hsi k v hkv s l hk hs hl
      by_cases hkt : tk = k
      · subst hkt
        rw [smapFind?_set_self] at hkv
        injection hkv with hv
        subst hv
        have h' : mkStateKey e.station (some e.line) = mkStateKey s l := by
          rw [← htk]
          exact hk
        obtain ⟨hes, _⟩ := mkStateKey_inj _ _ _ _ hgE_u hs hwfl_e hl h'
        subst hes
        exact ⟨nt, smapFind?_set_self _ _ _, le_refl _⟩
      · rw [smapFind?_set_ne _ _ _ _ hkt] at hkv
        obtain ⟨t, ht, htle⟩ := hsdTracks k v hkv s l hk hs hl
        by_cases hse : e.station = s
        · subst hse
          refine ⟨nt, smapFind?_set_self _ _ _, ?_⟩
          have := (stationImproved_iff st e.station nt).mp hsi t ht
          omega
        · rw [smapFind?_set_ne _ _ _ _ hse]
          exact ⟨t, ht, htle⟩
    have hsdTracksF : ¬ stationImproved st e.station nt = true →
        ∀ k v, smapFind? (smapSet st.stateDistances tk nt) k = some v →
        ∀ s l, k = mkStateKey s l → noUnderscore s → wfLineOpt l →
          ∃ t, smapFind? st.stationDistances s = some t ∧ t ≤ v := by
      intro hsi k v hkv s l hk hs hl
      by_cases hkt : tk = k
      · subst hkt
        rw [smapFind?_set_self] at hkv
        injection hkv with hv
        subst hv
        have h' : mkStateKey e.station (some e.line) = mkStateKey s l := by
          rw [← htk]
          exact hk
        obtain ⟨hes, _⟩ := mkStateKey_inj _ _ _ _ hgE_u hs hwfl_e hl h'
        subst hes
        unfold stationImproved at hsi
        cases hf : smapFind? st.stationDistances e.station with
        | none =>
          rw [hf] at hsi
          simp at hsi
        | some t₀ =>
          rw [hf] at hsi
          exact ⟨t₀, rfl, Nat.le_of_not_lt (by simpa using hsi)⟩
      · rw [smapFind?_set_ne _ _ _ _ hkt] at hkv
        exact hsdTracks k v hkv s l hk hs hl
    have hstationBestT : stationImproved st e.station nt = true →
        ∀ s t, smapFind? (smapSet st.stationDistances e.station nt) s = some t →
        ∃ l, smapFind? (smapSet st.bestStateForStation e.station tk) s
            = some (mkStateKey s l) ∧
          noUnderscore s ∧ wfLineOpt l ∧
          smapFind? (smapSet st.stateDistances tk nt) (mkStateKey s l) = some t := by
      intro _ s t hst
      by_cases hse : e.station = s
      · subst hse
        rw [smapFind?_set_self] at hst
        injection hst with ht
        subst ht
        refine ⟨some e.line, ?_, hgE_u, hwfl_e, ?_⟩
        · rw [smapFind?_set_self, htk]
        · rw [← htk]
          exact smapFind?_set_self _ _ _
      · rw [smapFind?_set_ne _ _ _ _ hse] at hst
        obtain ⟨l, hB, hu, hl, hD⟩ := hstationBest s t hst
        have hne : tk ≠ mkStateKey s l := by
          intro hkey
          have h' : mkStateKey e.station (some e.line) = mkStateKey s l := by
            rw [← htk]
            exact hkey
          obtain ⟨hes, _⟩ := mkStateKey_inj _ _ _ _ hgE_u hu hwfl_e hl h'
          exact hse hes
        refine ⟨l, ?_, hu, hl, ?_⟩
        · rw [smapFind?_set_ne _ _ _ _ hse]
          exact hB
        · rw [smapFind?_set_ne _ _ _ _ hne]
          exact hD
    have hstationBestF : ¬ stationImproved st e.station nt = true →
        ∀ s t, smapFind? st.stationDistances s = some t →
        ∃ l, smapFind? st.bestStateForStation s = some (mkStateKey s l) ∧
          noUnderscore s ∧ wfLineOpt l ∧
          smapFind? (smapSet st.stateDistances tk nt) (mkStateKey s l) = some t := by
      intro hsi s t hst
      obtain ⟨l, hB, hu, hl, hD⟩ := hstationBest s t hst
      have hne : tk ≠ mkStateKey s l := by
        intro hkey
        have h' : mkStateKey e.station (some e.line) = mkStateKey s l := by
          rw [← htk]
          exact hkey
        obtain ⟨hes, hel⟩ := mkStateKey_inj _ _ _ _ hgE_u hu hwfl_e hl h'
        subst hes
        have hDtk : smapFind? st.stateDistances tk = some t := by
          rw [htk, h']
          exact hD
        have hlt := himp t hDtk
        unfold stationImproved at hsi
        rw [hst] at hsi
        simp at hsi
        omega
      exact ⟨l, hB, hu, hl, by rw [smapFind?_set_ne _ _ _ _ hne]; exact hD⟩
    have hstepD : ∀ k info ps, smapFind? st.pathMap k = some info →
        info.prevStation = some ps →
        ∃ dπ dk, smapFind? st.stateDistances (mkStateKey ps info.prevLine) = some dπ ∧
          smapFind? st.stateDistances k = some dk ∧ dπ ≤ dk := by
      intro k info ps hfind hps
      by_cases hk : k = mkStateKey originCode none
      · subst hk
        rw [hinitP] at hfind
        injection hfind with h
        subst h
        simp at hps
      · obtain ⟨ps', pl, pStation, eg, dπ, dk, hinfo, _, _, _, _, _,
          hDπ, hDk, hle⟩ := hpathGood k info hfind hk
        subst hinfo
        have hps' : ps' = ps := by simpa using hps
        subst hps'
        refine ⟨dπ, dk, ?_, hDk, le_trans (Nat.le_add_right _ _) hle⟩
        simpa using hDπ
    have hPsome : (smapFind? st.pathMap
        (mkStateKey cur.stationCode cur.lineCode)).isSome := by
      rw [hdomPD (mkStateKey cur.stationCode cur.lineCode), hcurD]
      rfl
    obtain ⟨lstc, hc, hndc⟩ := hchains (mkStateKey cur.stationCode cur.lineCode) hPsome
    have havoid : ∀ x ∈ lstc, x ≠ tk := by
      intro x hx hxtk
      obtain ⟨dx, hdx, hdxle⟩ := chain_distance st.pathMap st.stateDistances
        (mkStateKey originCode none) hstepD lstc
        (mkStateKey cur.stationCode cur.lineCode) cur.totalTime hc hcurD x hx
      rw [hxtk] at hdx
      have := himp dx hdx
      omega
    have hagree : ∀ k, k ≠ tk → smapFind? (smapSet st.pathMap tk
        ⟨some cur.stationCode, cur.lineCode, some e.line,
          segmentTime cur.lineCode cs e⟩) k
        = smapFind? st.pathMap k := by
      intro k hk
      exact smapFind?_set_ne _ _ _ _ (Ne.symm hk)
    have hc' : ChainTo (smapSet st.pathMap tk
        ⟨some cur.stationCode, cur.lineCode, some e.line,
          segmentTime cur.lineCode cs e⟩)
        (mkStateKey originCode none) lstc
        (mkStateKey cur.stationCode cur.lineCode) :=
      chain_lift_avoid _ _ _ tk hagree lstc _ hc hne_cur havoid
    have htkchain : ChainTo (smapSet st.pathMap tk
        ⟨some cur.stationCode, cur.lineCode, some e.line,
          segmentTime cur.lineCode cs e⟩)
        (mkStateKey originCode none)
        (mkStateKey cur.stationCode cur.lineCode :: lstc) tk :=
      ⟨⟨⟨some cur.stationCode, cur.lineCode, some e.line,
          segmentTime cur.lineCode cs e⟩,
        smapFind?_set_self _ _ _, cur.stationCode, rfl, rfl⟩, hc'⟩
    have hndtk : (tk :: mkStateKey cur.stationCode cur.lineCode :: lstc).Nodup := by
      rw [List.nodup_cons]
      refine ⟨?_, hndc⟩
      intro h
      rcases List.mem_cons.mp h with h1 | h1
      · exact hne_cur h1.symm
      · exact havoid tk h1 rfl
    have hchains' : ∀ k, (smapFind? (smapSet st.pathMap tk
        ⟨some cur.stationCode, cur.lineCode, some e.line,
          segmentTime cur.lineCode cs e⟩) k).isSome →
        ∃ lst, ChainTo (smapSet st.pathMap tk
          ⟨some cur.stationCode, cur.lineCode, some e.line,
            segmentTime cur.lineCode cs e⟩)
          (mkStateKey originCode none) lst k ∧ (k :: lst).Nodup := by
      intro k hk
      by_cases hkt : k = tk
      · subst hkt
        exact ⟨mkStateKey cur.stationCode cur.lineCode :: lstc, htkchain, hndtk⟩
      · rw [hagree k hkt] at hk
        obtain ⟨lst, hlst, hlnd⟩ := hchains k hk
        exact chain_update_nodup st.pathMap _ (mkStateKey originCode none) tk
          (mkStateKey cur.stationCode cur.lineCode) lstc hagree
          ⟨⟨none, none, none, 0⟩, hinitP, rfl⟩ hc havoid htkchain hndtk
          lst k hkt hlst hlnd
    have hcurD' : smapFind? (smapSet st.stateDistances tk nt)
        (mkStateKey cur.stationCode cur.lineCode) = some cur.totalTime := by
      rw [smapFind?_set_ne _ _ _ _ (Ne.symm hne_cur)]
      exact hcurD
    have hqoe' : ∀ k v, smapFind? (smapSet st.stateDistances tk nt) k = some v →
        (∃ q ∈ heapPush st.queue ⟨e.station, some e.line, nt⟩,
          mkStateKey q.stationCode q.lineCode = k ∧ q.totalTime = v) ∨
        ExpandedAt graph stationMap maxTime (smapSet st.stateDistances tk nt) k v ∨
        (k = mkStateKey cur.stationCode cur.lineCode ∧ v = cur.totalTime) := by
      intro k v hkv
      by_cases hkt : tk = k
      · subst hkt
        rw [smapFind?_set_self] at hkv
        injection hkv with hv
        subst hv
        exact Or.inl ⟨⟨e.station, some e.line, nt⟩,
          (mem_heapPush _ _ _).mpr (Or.inl rfl), htk.symm, rfl⟩
      · rw [smapFind?_set_ne _ _ _ _ hkt] at hkv
        rcases hqoe k v hkv with ⟨q, hq, hk1, hk2⟩ | hexp | hcur
        · exact Or.inl ⟨q, (mem_heapPush _ _ _).mpr (Or.inr hq), hk1, hk2⟩
        · exact Or.inr (Or.inl (expandedAt_mono _ _ _ _ _ hmono _ _ hexp))
        · exact Or.inr (Or.inr hcur)
    have hrone : RelaxedOne graph maxTime cur cs (smapSet st.stateDistances tk nt) e :=
      Or.inr ⟨nt, smapFind?_set_self st.stateDistances tk nt, le_refl nt⟩
    have hpot : statePotential maxTime graph (smapSet st.stateDistances tk nt) + 1
        ≤ statePotential maxTime graph st.stateDistances := by
      cases hf : smapFind? st.stateDistances tk with
      | none =>
        have hnm : tk ∉ smapKeys st.stateDistances := by
          rw [← smapFind?_isSome_iff_mem, hf]
          simp
        exact statePotential_set_fresh maxTime graph originCode st.stateDistances
          tk nt hnm hndD hkeysSub htkin hntle
      | some t =>
        exact statePotential_set_existing maxTime graph st.stateDistances tk nt t
          hndD hf (himp t hf)
    have hmeas : statePotential maxTime graph (smapSet st.stateDistances tk nt)
        + (heapPush st.queue ⟨e.station, some e.line, nt⟩).length
        ≤ statePotential maxTime graph st.stateDistances + st.queue.length := by
      rw [heapPush_length]
      omega
    by_cases hsi : stationImproved st e.station nt = true
    · rw [if_pos hsi, if_pos hsi]
      exact ⟨⟨⟨hndD', smapKeys_set_nodup _ _ _ hndSD, hkeysSub', hleMax', hinitD',
        hinitP', hdomPD', hpathGood', hqueueWf', hwalkD', hsdTracksT hsi,
        hstationBestT hsi, hchains'⟩, hcurD', hqoe'⟩, hrone, hmono, hmeas⟩
    · rw [if_neg hsi, if_neg hsi]
      exact ⟨⟨⟨hndD', hndSD, hkeysSub', hleMax', hinitD', hinitP', hdomPD',
        hpathGood', hqueueWf', hwalkD', hsdTracksF hsi, hstationBestF hsi,
        hchains'⟩, hcurD', hqoe'⟩, hrone, hmono, hmeas⟩

theorem relaxedOne_mono (graph : StationGraph) (maxTime : Nat) (cur : QueueEntry)
    (cs : Station) (D D' : SMap Nat) (e : GraphEdge) (h : DMono D D')
    (hr : RelaxedOne graph maxTime cur cs D e) :
    RelaxedOne graph maxTime cur cs D' e := by
  rcases hr with h1 | ⟨v, hv, hle⟩
  · exact Or.inl h1
  · obtain ⟨v', hv', hle'⟩ := h _ _ hv
    exact Or.inr ⟨v', hv', le_trans hle' hle⟩

/-- The relaxation fold over a list of outgoing edges preserves the fold
invariant, relaxes every edge of the list, only lowers distances, and does
not increase the measure. -/
theorem relax_fold (graph : StationGraph) (stationMap : SMap Station)
    (maxTime : Nat) (originCode : String) (cur : QueueEntry) (cs : Station)
    (hctx : RelaxCtx graph stationMap maxTime originCode cur cs) :
    ∀ (es : List GraphEdge) (st : SearchState),
    (∀ e ∈ es, e ∈ edgesAt graph cur.stationCode) →
    FoldInv graph stationMap maxTime originCode cur st →
    FoldInv graph stationMap maxTime originCode cur
      (es.foldl (relaxEdge maxTime cur cs) st) ∧
    (∀ e ∈ es, RelaxedOne graph maxTime cur cs
      (es.foldl (relaxEdge maxTime cur cs) st).stateDistances e) ∧
    DMono st.stateDistances (es.foldl (relaxEdge maxTime cur cs) st).stateDistances ∧
    searchMeasure maxTime graph (es.foldl (relaxEdge maxTime cur cs) st)
      ≤ searchMeasure maxTime graph st := by
  intro es
  induction es with
  | nil =>
    intro st _ hinv
    exact ⟨hinv, by simp, dmono_refl _, le_refl _⟩
  | cons e es ih =>
    intro st hes hinv
    rw [List.foldl_cons]
    obtain ⟨hinv1, hrone1, hmono1, hmeas1⟩ :=
      relaxEdge_master graph stationMap maxTime originCode cur cs st e hctx
        (hes e (List.mem_cons_self _ _)) hinv
    obtain ⟨hinv2, hrone2, hmono2, hmeas2⟩ :=
      ih (relaxEdge maxTime cur cs st e)
        (fun e' he' => hes e' (List.mem_cons_of_mem _ he')) hinv1
    refine ⟨hinv2, ?_, dmono_trans hmono1 hmono2, le_trans hmeas2 hmeas1⟩
    intro e' he'
    rcases List.mem_cons.mp he' with h | h
    · subst h
      exact relaxedOne_mono graph maxTime cur cs _ _ e' hmono2 hrone1
    · exact hrone2 e' h

/-- One iteration of the search loop preserves the loop invariant and
strictly decreases the termination measure (whenever the queue is
nonempty). -/
theorem searchStep_master (graph : StationGraph) (stationMap : SMap Station)
    (maxTime : Nat) (originCode : String) (st : SearchState)
    (hg : GoodGraph graph) (ho : noUnderscore originCode)
    (hq : st.queue ≠ [])
    (hinv : SearchInv graph stationMap maxTime originCode st) :
    SearchInv graph stationMap maxTime originCode
      (searchStep graph stationMap maxTime st) ∧
    searchMeasure maxTime graph (searchStep graph stationMap maxTime st)
      < searchMeasure maxTime graph st := by
  obtain ⟨hcore, hqoe⟩ := hinv
  obtain ⟨cur, rest, hpop⟩ : ∃ cur rest, heapPop st.queue = (some cur, rest) := by
    rcases hpp : heapPop st.queue with ⟨o, r⟩
    cases o with
    | none =>
      obtain ⟨h1, _⟩ := heapPop_none st.queue r hpp
      exact absurd h1 hq
    | some c => exact ⟨c, r, rfl⟩
  have hqperm : List.Perm (cur :: rest) st.queue := heapPop_perm st.queue cur rest hpop
  have hcur_mem : cur ∈ st.queue := hqperm.subset (List.mem_cons_self _ _)
  have hlen : st.queue.length = rest.length + 1 := by
    simpa using hqperm.length_eq.symm
  obtain ⟨hwfcur, hwflcur, hwalkcur, vcur, hvcur, hvcurle⟩ := hcore.queueWf cur hcur_mem
  have hcore₁ : SearchInvCore graph stationMap maxTime originCode
      { st with queue := rest } :=
    ⟨hcore.ndD, hcore.ndSD, hcore.keysSub, hcore.leMax, hcore.initD, hcore.initP,
      hcore.domPD, hcore.pathGood,
      fun q hq' => hcore.queueWf q (hqperm.subset (List.mem_cons_of_mem _ hq')),
      hcore.walkD, hcore.sdTracks, hcore.stationBest, hcore.chains⟩
  have hμst : searchMeasure maxTime graph st
      = statePotential maxTime graph st.stateDistances + st.queue.length := rfl
  have hμ₁ : searchMeasure maxTime graph { st with queue := rest }
      = statePotential maxTime graph st.stateDistances + rest.length := rfl
  by_cases hstale : staleEntry { st with queue := rest } cur = true
  · have hstep : searchStep graph stationMap maxTime st = { st with queue := rest } := by
      simp only [searchStep, hpop]
      rw [if_pos hstale]
    have hstale0 : staleEntry st cur = true := hstale
    have hbestlt : ∃ best, smapFind? st.stateDistances
        (mkStateKey cur.stationCode cur.lineCode) = some best ∧
        best < cur.totalTime := by
      unfold staleEntry at hstale0
      cases hf : smapFind? st.stateDistances
          (mkStateKey cur.stationCode cur.lineCode) with
      | none =>
        rw [hf] at hstale0
        simp at hstale0
      | some best =>
        rw [hf] at hstale0
        exact ⟨best, rfl, by simpa using hstale0⟩
    rw [hstep]
    refine ⟨⟨hcore₁, ?_⟩, by rw [hμ₁, hμst]; omega⟩
    intro k v hkv
    rcases hqoe k v hkv with ⟨q, hqm, hk1, hk2⟩ | hexp
    · rcases List.mem_cons.mp (hqperm.mem_iff.mpr hqm) with hq' | hq'
      · subst hq'
        obtain ⟨best, hbest, hlt⟩ := hbestlt
        rw [← hk1] at hkv
        rw [hkv] at hbest
        injection hbest with hb
        omega
      · exact Or.inl ⟨q, hq', hk1, hk2⟩
    · exact Or.inr hexp
  · by_cases hover : cur.totalTime > maxTime
    · have hstep : searchStep graph stationMap maxTime st = { st with queue := rest } := by
        simp only [searchStep, hpop]
        rw [if_neg hstale, if_pos hover]
      rw [hstep]
      refine ⟨⟨hcore₁, ?_⟩, by rw [hμ₁, hμst]; omega⟩
      intro k v hkv
      rcases hqoe k v hkv with ⟨q, hqm, hk1, hk2⟩ | hexp
      · rcases List.mem_cons.mp (hqperm.mem_iff.mpr hqm) with hq' | hq'
        · subst hq'
          have hvle : v ≤ maxTime := hcore.leMax (k, v) (smapFind?_some_mem _ _ _ hkv)
          omega
        · exact Or.inl ⟨q, hq', hk1, hk2⟩
      · exact Or.inr hexp
    · cases hcs : smapFind? stationMap cur.stationCode with
      | none =>
        have hstep : searchStep graph stationMap maxTime st = { st with queue := rest } := by
          simp only [searchStep, hpop]
          rw [if_neg hstale, if_neg hover, hcs]
        rw [hstep]
        refine ⟨⟨hcore₁, ?_⟩, by rw [hμ₁, hμst]; omega⟩
        intro k v hkv
        rcases hqoe k v hkv with ⟨q, hqm, hk1, hk2⟩ | hexp
        · rcases List.mem_cons.mp (hqperm.mem_iff.mpr hqm) with hq' | hq'
          · rw [hq'] at hk1
            exact Or.inr ⟨cur.stationCode, cur.lineCode, hk1.symm, hwfcur, hwflcur,
              Or.inr (Or.inl hcs)⟩
          · exact Or.inl ⟨q, hq', hk1, hk2⟩
        · exact Or.inr hexp
      | some cs =>
        have hstep : searchStep graph stationMap maxTime st
            = ((smapFind? graph cur.stationCode).getD []).foldl
                (relaxEdge maxTime cur cs) { st with queue := rest } := by
          simp only [searchStep, hpop]
          rw [if_neg hstale, if_neg hover, hcs]
        have hcurD : smapFind? st.stateDistances
            (mkStateKey cur.stationCode cur.lineCode) = some cur.totalTime := by
          have hstale0 : ¬ staleEntry st cur = true := hstale
          unfold staleEntry at hstale0
          rw [hvcur] at hstale0
          simp at hstale0
          rw [hvcur]
          have : vcur = cur.totalTime := le_antisymm hvcurle hstale0
          rw [this]
        have hctx : RelaxCtx graph stationMap maxTime originCode cur cs :=
          ⟨hg, ho, hwfcur, hwflcur, hcs, Nat.le_of_not_lt hover, hwalkcur⟩
        have hfinv : FoldInv graph stationMap maxTime originCode cur
            { st with queue := rest } := by
          refine ⟨hcore₁, hcurD, ?_⟩
          intro k v hkv
          rcases hqoe k v hkv with ⟨q, hqm, hk1, hk2⟩ | hexp
          · rcases List.mem_cons.mp (hqperm.mem_iff.mpr hqm) with hq' | hq'
            · rw [hq'] at hk1 hk2
              exact Or.inr (Or.inr ⟨hk1.symm, hk2.symm⟩)
            · exact Or.inl ⟨q, hq', hk1, hk2⟩
          · exact Or.inr (Or.inl hexp)
        obtain ⟨hfinv', hrone, hmono', hmeas'⟩ :=
          relax_fold graph stationMap maxTime originCode cur cs hctx
            ((smapFind? graph cur.stationCode).getD []) { st with queue := rest }
            (fun e he => he) hfinv
        obtain ⟨hcore₂, hcurD₂, hqoe₂⟩ := hfinv'
        rw [hstep]
        refine ⟨⟨hcore₂, ?_⟩, lt_of_le_of_lt hmeas' (by rw [hμ₁, hμst]; omega)⟩
        intro k v hkv
        rcases hqoe₂ k v hkv with hwit | hexp | ⟨hk1, hv1⟩
        · exact Or.inl hwit
        · exact Or.inr hexp
        · subst hk1
          subst hv1
          refine Or.inr ⟨cur.stationCode, cur.lineCode, rfl, hwfcur, hwflcur,
            Or.inr (Or.inr ⟨cs, hcs, ?_⟩)⟩
          intro e he
          exact hrone e he

/-- The initial search state satisfies the loop invariant. -/
theorem initial_inv (graph : StationGraph) (stationMap : SMap Station)
    (maxTime : Nat) (originCode : String)
    (ho : noUnderscore originCode) :
    SearchInv graph stationMap maxTime originCode
      (initialSearchState originCode) := by
  have hfindD : ∀ k, smapFind? [(mkStateKey originCode none, 0)] k
      = if mkStateKey originCode none = k then some 0 else none := by
    intro k
    rfl
  constructor
  · constructor
    · simp [initialSearchState, smapKeys]
    · simp [initialSearchState, smapKeys]
    · intro k hk
      simp only [initialSearchState, smapKeys, List.map_cons, List.map_nil,
        List.mem_singleton] at hk
      subst hk
      exact List.mem_cons_self _ _
    · intro p hp
      simp only [initialSearchState, List.mem_singleton] at hp
      subst hp
      exact Nat.zero_le _
    · simp [initialSearchState, smapFind?]
    · simp [initialSearchState, smapFind?]
    · intro k
      by_cases hk : mkStateKey originCode none = k
      · subst hk
        simp [initialSearchState, smapFind?]
      · simp [initialSearchState, smapFind?, hk]
    · intro k info hfind hkinit
      simp only [initialSearchState, smapFind?] at hfind
      by_cases hk : mkStateKey originCode none = k
      · exact absurd hk.symm hkinit
      · rw [if_neg hk] at hfind
        exact absurd hfind (by simp)
    · intro q hq
      simp only [initialSearchState, List.mem_singleton] at hq
      subst hq
      refine ⟨ho, fun s hs => Option.noConfusion hs, WalkTo.origin, 0, ?_, le_refl _⟩
      simp [smapFind?]
    · intro k v hkv
      simp only [initialSearchState, smapFind?] at hkv
      by_cases hk : mkStateKey originCode none = k
      · rw [if_pos hk] at hkv
        injection hkv with hv
        subst hv
        exact ⟨originCode, none, hk.symm, ho,
          fun s hs => Option.noConfusion hs, WalkTo.origin⟩
      · rw [if_neg hk] at hkv
        exact absurd hkv (by simp)
    · intro k v hkv s l hk hs hl
      simp only [initialSearchState, smapFind?] at hkv
      by_cases hkk : mkStateKey originCode none = k
      · rw [if_pos hkk] at hkv
        injection hkv with hv
        subst hv
        rw [← hkk] at hk
        obtain ⟨hos, hol⟩ := mkStateKey_inj originCode s none l ho hs
          (fun s' hs' => Option.noConfusion hs') hl hk
        subst hos
        exact ⟨0, by simp [smapFind?], le_refl _⟩
      · rw [if_neg hkk] at hkv
        exact absurd hkv (by simp)
    · intro s t hst
      simp only [initialSearchState, smapFind?] at hst
      by_cases hs : originCode = s
      · rw [if_pos hs] at hst
        injection hst with ht
        subst ht
        subst hs
        refine ⟨none, ?_, ho, fun s' hs' => Option.noConfusion hs', ?_⟩
        · simp [smapFind?]
        · simp [smapFind?]
      · rw [if_neg hs] at hst
        exact absurd hst (by simp)
    · intro k hk
      simp only [initialSearchState, smapFind?] at hk
      by_cases hkk : mkStateKey originCode none = k
      · refine ⟨[], ?_, ?_⟩
        · exact hkk.symm
        · simp
      · rw [if_neg hkk] at hk
        simp at hk
  · intro k v hkv
    simp only [initialSearchState, smapFind?] at hkv
    by_cases hk : mkStateKey originCode none = k
    · rw [if_pos hk] at hkv
      injection hkv with hv
      left
      exact ⟨⟨originCode, none, 0⟩, List.mem_cons_self _ _, hk, hv⟩
    · rw [if_neg hk] at hkv
      exact absurd hkv (by simp)

/-- The search loop run with fuel exceeding the measure empties the queue and
preserves the invariant. -/
theorem searchLoop_master (graph : StationGraph) (stationMap : SMap Station)
    (maxTime : Nat) (originCode : String)
    (hg : GoodGraph graph) (ho : noUnderscore originCode) :
    ∀ (fuel : Nat) (st : SearchState),
      SearchInv graph stationMap maxTime originCode st →
      searchMeasure maxTime graph st < fuel →
      (searchLoop graph stationMap maxTime fuel st).queue = [] ∧
      SearchInv graph stationMap maxTime originCode
        (searchLoop graph stationMap maxTime fuel st) := by
  intro fuel
  induction fuel with
  | zero =>
    intro st _ h
    omega
  | succ fuel ih =>
    intro st hinv hlt
    by_cases hq : st.queue = []
    · simp only [searchLoop, if_pos hq]
      exact ⟨hq, hinv⟩
    · simp only [searchLoop, if_neg hq]
      obtain ⟨hinv', hdec⟩ :=
        searchStep_master graph stationMap maxTime originCode st hg ho hq hinv
      exact ih _ hinv' (by omega)

/-- The initial measure is below the fuel budget `searchFuel`. -/
theorem initial_measure_lt (graph : StationGraph) (maxTime : Nat)
    (originCode : String) :
    searchMeasure maxTime graph (initialSearchState originCode)
      < searchFuel graph maxTime := by
  show statePotential maxTime graph [(mkStateKey originCode none, 0)] + 1
      < searchFuel graph maxTime
  unfold statePotential searchFuel
  simp

/-- The fully run search loop of `searchReachableStations`: the queue drains
and the loop invariant holds at the final state. -/
theorem search_final (graph : StationGraph) (stationMap : SMap Station)
    (maxTime : Nat) (originCode : String)
    (hg : GoodGraph graph) (ho : noUnderscore originCode) :
    (searchLoop graph stationMap maxTime (searchFuel graph maxTime)
      (initialSearchState originCode)).queue = [] ∧
    SearchInv graph stationMap maxTime originCode
      (searchLoop graph stationMap maxTime (searchFuel graph maxTime)
        (initialSearchState originCode)) :=
  searchLoop_master graph stationMap maxTime originCode hg ho
    (searchFuel graph maxTime) (initialSearchState originCode)
    (initial_inv graph stationMap maxTime originCode ho)
    (initial_measure_lt graph maxTime originCode)

/-- Every station and line of a walk is well-formed (underscore-free station,
non-sentinel line). -/
theorem walk_wf (graph : StationGraph) (stationMap : SMap Station)
    (originCode : String) (hg : GoodGraph graph) (ho : noUnderscore originCode) :
    ∀ (s : String) (l : Option String) (c : Nat),
      WalkTo graph stationMap originCode s l c →
      noUnderscore s ∧ wfLineOpt l := by
  intro s l c hw
  induction hw with
  | origin => exact ⟨ho, fun s' hs' => Option.noConfusion hs'⟩
  | step s l c station e hw hst hedge ih =>
    obtain ⟨hu, hn, _⟩ := goodGraph_edge graph hg s e hedge
    exact ⟨hu, fun s' hs' => by injection hs' with h; exact h ▸ hn⟩

/-- At a drained final state the path-map inequality is an equality: the
recorded distance of a state is exactly its predecessor's distance plus the
recorded segment time. -/
theorem final_path_exact (graph : StationGraph) (stationMap : SMap Station)
    (maxTime : Nat) (originCode : String) (st : SearchState)
    (hfin : st.queue = [])
    (hinv : SearchInv graph stationMap maxTime originCode st) :
    ∀ k info, smapFind? st.pathMap k = some info →
      k ≠ mkStateKey originCode none →
      ∃ ps pl pStation e dπ dk,
        info = ⟨some ps, pl, some e.line, segmentTime pl pStation e⟩ ∧
        smapFind? stationMap ps = some pStation ∧ e ∈ edgesAt graph ps ∧
        k = mkStateKey e.station (some e.line) ∧
        noUnderscore ps ∧ wfLineOpt pl ∧
        smapFind? st.stateDistances (mkStateKey ps pl) = some dπ ∧
        smapFind? st.stateDistances k = some dk ∧
        dπ + segmentTime pl pStation e = dk := by
  obtain ⟨hcore, hqoe⟩ := hinv
  intro k info hfind hkinit
  obtain ⟨ps, pl, pStation, e, dπ, dk, hinfo, hst, hedge, hkk, hund, hwfl,
    hDπ, hDk, hle⟩ := hcore.pathGood k info hfind hkinit
  refine ⟨ps, pl, pStation, e, dπ, dk, hinfo, hst, hedge, hkk, hund, hwfl,
    hDπ, hDk, ?_⟩
  rcases hqoe (mkStateKey ps pl) dπ hDπ with ⟨q, hq, _⟩ | hexp
  · rw [hfin] at hq
    simp at hq
  · obtain ⟨s', l', hkey, hs', hl', hcase⟩ := hexp
    obtain ⟨hss, hll⟩ := mkStateKey_inj ps s' pl l' hund hs' hwfl hl' hkey
    rw [← hss] at hcase
    rw [← hll] at hcase
    rcases hcase with h1 | h1 | ⟨station, hstation, hrelax⟩
    · have := hcore.leMax (mkStateKey ps pl, dπ) (smapFind?_some_mem _ _ _ hDπ)
      omega
    · rw [hst] at h1
      exact absurd h1 (by simp)
    · rw [hst] at hstation
      injection hstation with hsteq
      rw [← hsteq] at hrelax
      rcases hrelax e hedge with h2 | ⟨v', hv', hvle⟩
      · have := hcore.leMax (k, dk) (smapFind?_some_mem _ _ _ hDk)
        omega
      · rw [← hkk] at hv'
        rw [hDk] at hv'
        injection hv' with hveq
        omega

/-- Completeness at a drained final state: every genuine walk within the
budget has a recorded state distance bounded by its cost. -/
theorem final_complete (graph : StationGraph) (stationMap : SMap Station)
    (maxTime : Nat) (originCode : String) (st : SearchState)
    (hg : GoodGraph graph) (ho : noUnderscore originCode)
    (hfin : st.queue = [])
    (hinv : SearchInv graph stationMap maxTime originCode st) :
    ∀ (s : String) (l : Option String) (c : Nat),
      WalkTo graph stationMap originCode s l c → c ≤ maxTime →
      ∃ v, smapFind? st.stateDistances (mkStateKey s l) = some v ∧ v ≤ c := by
  obtain ⟨hcore, hqoe⟩ := hinv
  intro s l c hwalk
  induction hwalk with
  | origin => exact fun _ => ⟨0, hcore.initD, le_refl _⟩
  | step s l c station e hw hst hedge ih =>
    intro hle
    obtain ⟨hnu_s, hwl_s⟩ := walk_wf graph stationMap originCode hg ho s l c hw
    obtain ⟨v, hv, hvle⟩ := ih (le_trans (Nat.le_add_right _ _) hle)
    rcases hqoe _ _ hv with ⟨q, hq, _⟩ | hexp
    · rw [hfin] at hq
      simp at hq
    · obtain ⟨s', l', hkey, hs', hl', hcase⟩ := hexp
      obtain ⟨hss, hll⟩ := mkStateKey_inj s s' l l' hnu_s hs' hwl_s hl' hkey
      rw [← hss] at hcase
      rw [← hll] at hcase
      rcases hcase with h1 | h1 | ⟨station', hstation', hrelax⟩
      · omega
      · rw [hst] at h1
        exact absurd h1 (by simp)
      · rw [hst] at hstation'
        injection hstation' with hsteq
        rw [← hsteq] at hrelax
        rcases hrelax e hedge with h2 | ⟨v', hv', hvle'⟩
        · omega
        · exact ⟨v', hv', by omega⟩

theorem routeWalk_step_eq (stationMap : SMap Station) (P : SMap PathInfo)
    (lineName : String → String) (d : Nat) (cur : String)
    (route : List RouteStep) (info : PathInfo) (ps : String)
    (fromSt toSt : Station) (lc : String)
    (hfind : smapFind? P cur = some info)
    (hprev : info.prevStation = some ps)
    (hfrom : smapFind? stationMap ps = some fromSt)
    (hto : smapFind? stationMap (splitHead cur) = some toSt)
    (hlc : info.lineCode = some lc)
    (hne : ¬ lc = "") :
    routeWalk stationMap P lineName (d + 1) cur route
      = routeWalk stationMap P lineName d (mkStateKey ps info.prevLine)
          (⟨ps, splitHead cur, fromSt.name, toSt.name, lineName lc, info.time⟩
            :: route) := by
  simp only [routeWalk, hfind, hprev, hfrom, hto, hlc, if_neg hne]

/-- The telescoping identity of the route reconstruction walk: along a
predecessor chain of a drained final state, the accumulated step times sum to
exactly the state's recorded distance. -/
theorem routeWalk_sum (graph : StationGraph) (stationMap : SMap Station)
    (maxTime : Nat) (originCode : String) (st : SearchState)
    (hfin : st.queue = [])
    (hinv : SearchInv graph stationMap maxTime originCode st)
    (hg : GoodGraph graph) (lineName : String → String) :
    ∀ (lst : List String) (k : String) (dk : Nat) (route : List RouteStep)
      (depth : Nat),
      ChainTo st.pathMap (mkStateKey originCode none) lst k →
      smapFind? st.stateDistances k = some dk →
      (smapFind? stationMap (splitHead k)).isSome →
      lst.length < depth →
      routeTimeSum (routeWalk stationMap st.pathMap lineName depth k route)
        = dk + routeTimeSum route := by
  intro lst
  induction lst with
  | nil =>
    intro k dk route depth hchain hDk hres hdep
    have hk : k = mkStateKey originCode none := hchain
    subst hk
    rw [hinv.1.initD] at hDk
    injection hDk with h0
    cases depth with
    | zero => omega
    | succ d =>
      have heq : routeWalk stationMap st.pathMap lineName (d + 1)
          (mkStateKey originCode none) route = route := by
        simp only [routeWalk, hinv.1.initP]
      rw [heq, ← h0]
      omega
  | cons π rest ih =>
    intro k dk route depth hchain hDk hres hdep
    obtain ⟨⟨info, hfindPk, ps, hps, hπ⟩, hrest⟩ := hchain
    have hkinit : k ≠ mkStateKey originCode none := by
      intro hk
      rw [hk] at hfindPk
      rw [hinv.1.initP] at hfindPk
      injection hfindPk with h
      rw [← h] at hps
      simp at hps
    obtain ⟨ps', pl, pStation, e, dπ, dk', hinfo, hstm, hedge, hkk, hund, hwfl,
      hDπ, hDk', heqn⟩ :=
      final_path_exact graph stationMap maxTime originCode st hfin hinv
        k info hfindPk hkinit
    rw [hDk] at hDk'
    injection hDk' with hdkeq
    subst hinfo
    have hps'ps : ps' = ps := by simpa using hps
    obtain ⟨hgu, hgn, hge⟩ := goodGraph_edge graph hg ps' e hedge
    have hsplit : splitHead k = e.station := by
      rw [hkk]
      exact splitHead_mkStateKey _ _ hgu
    obtain ⟨toSt, htoSt⟩ := Option.isSome_iff_exists.mp hres
    have hπ' : π = mkStateKey ps' pl := by
      rw [hπ, hps'ps]
    cases depth with
    | zero => omega
    | succ d =>
      have hstep := routeWalk_step_eq stationMap st.pathMap lineName d k route
        _ ps' pStation toSt e.line hfindPk rfl hstm htoSt rfl hge
      have hres' : (smapFind? stationMap (splitHead (mkStateKey ps' pl))).isSome := by
        rw [splitHead_mkStateKey _ _ hund, hstm]
        rfl
      rw [hstep]
      rw [ih (mkStateKey ps' pl) dπ _ d (hπ' ▸ hrest) hDπ hres' (by simpa using hdep)]
      simp only [routeTimeSum, List.map_cons, List.sum_cons]
      omega

theorem chain_head_isSome (P : SMap PathInfo) (initKey : String)
    (hinit : (smapFind? P initKey).isSome) :
    ∀ (lst : List String) (k : String), ChainTo P initKey lst k →
      (smapFind? P k).isSome := by
  intro lst k hchain
  cases lst with
  | nil =>
    have hk : k = initKey := hchain
    rw [hk]
    exact hinit
  | cons π rest =>
    obtain ⟨⟨info, hinfo, _⟩, _⟩ := hchain
    rw [hinfo]
    rfl

theorem chain_mem_keys (P : SMap PathInfo) (initKey : String)
    (hinit : (smapFind? P initKey).isSome) :
    ∀ (lst : List String) (k : String), ChainTo P initKey lst k →
      ∀ x ∈ lst, x ∈ smapKeys P := by
  intro lst
  induction lst with
  | nil =>
    intro k _ x hx
    simp at hx
  | cons π rest ih =>
    intro k hchain x hx
    rcases List.mem_cons.mp hx with h | h
    · rw [← smapFind?_isSome_iff_mem, h]
      exact chain_head_isSome P initKey hinit rest π hchain.2
    · exact ih π hchain.2 x h

/-- C2 (amended): for well-formed inputs — every edge target underscore-free
with a line code that is neither empty nor the sentinel string, and an
underscore-free origin — every result of `searchReachableStations` that
carries a reconstructed route for the origin has segment times summing
exactly to its reported total time. -/
theorem route_time_consistency (graph : StationGraph) (stationMap : SMap Station)
    (originCode : String) (maxTime : Nat)
    (hg : GoodGraph graph) (ho : noUnderscore originCode)
    (r : SearchResult)
    (hr : r ∈ searchReachableStations graph stationMap originCode maxTime)
    (routes : SMap (List RouteStep))
    (hroutes : r.routesFromOrigins = some routes)
    (route : List RouteStep)
    (hroute : smapFind? routes originCode = some route) :
    routeTimeSum route = r.totalTime := by
  obtain ⟨hfq, hinv⟩ := search_final graph stationMap maxTime originCode hg ho
  simp only [searchReachableStations] at hr
  rw [mem_sortResultsByTime, List.mem_filterMap] at hr
  set stF := searchLoop graph stationMap maxTime (searchFuel graph maxTime)
    (initialSearchState originCode) with hstF
  obtain ⟨p, hp, hfp⟩ := hr
  cases hsm : smapFind? stationMap p.1 with
  | none =>
    simp only [hsm] at hfp
    exact Option.noConfusion hfp
  | some station =>
    simp only [hsm] at hfp
    injection hfp with hfp
    subst hfp
    have hro : (if (reconstructRoute stationMap stF p.1).length > 0
        then some [(originCode, reconstructRoute stationMap stF p.1)]
        else none) = some routes := hroutes
    by_cases hlen : (reconstructRoute stationMap stF p.1).length > 0
    · rw [if_pos hlen] at hro
      injection hro with hro
      rw [← hro] at hroute
      have hrt : route = reconstructRoute stationMap stF p.1 := by
        simp [smapFind?] at hroute
        exact hroute.symm
      show routeTimeSum route = p.2
      have hSD : smapFind? stF.stationDistances p.1 = some p.2 :=
        smapFind?_of_mem_nodup _ p.1 p.2 hinv.1.ndSD hp
      obtain ⟨l, hB, hu, hl, hD⟩ := hinv.1.stationBest p.1 p.2 hSD
      have hPsome : (smapFind? stF.pathMap (mkStateKey p.1 l)).isSome := by
        rw [hinv.1.domPD, hD]
        rfl
      obtain ⟨lst, hchain, hnd⟩ := hinv.1.chains _ hPsome
      have hkeys := chain_mem_keys stF.pathMap (mkStateKey originCode none)
        (by rw [hinv.1.initP]; rfl) lst (mkStateKey p.1 l) hchain
      have hlenle : lst.length ≤ stF.pathMap.length := by
      -- blank kept minimal
        have hsp := (List.Nodup.subperm (List.Nodup.of_cons hnd)
          (fun x hx => hkeys x hx)).length_le
        rw [smapKeys_length] at hsp
        exact hsp
      have hres : (smapFind? stationMap (splitHead (mkStateKey p.1 l))).isSome := by
        rw [splitHead_mkStateKey _ _ hu, hsm]
        rfl
      have hrec : reconstructRoute stationMap stF p.1
          = routeWalk stationMap stF.pathMap (getLineName stationMap)
              (stF.pathMap.length + 1) (mkStateKey p.1 l) [] := by
        simp only [reconstructRoute, hB]
      have hsum := routeWalk_sum graph stationMap maxTime originCode stF hfq hinv
        hg (getLineName stationMap) lst (mkStateKey p.1 l) p.2 []
        (stF.pathMap.length + 1) hchain hD hres (by omega)
      rw [hrt, hrec, hsum]
      simp [routeTimeSum]
    · rw [if_neg hlen] at hro
      exact absurd hro (by simp)

/-- C2 counterexample: with an edge whose line code is the empty string (a
falsy value in JavaScript), `reconstructRoute` silently drops the segment, so
the reported route of station C sums to 2 while its total time is 7. -/
theorem route_time_mismatch_empty_line :
    ∃ r ∈ searchReachableStations exGraphEmptyLine exMap3 "A" 7,
      ∃ routes route, r.routesFromOrigins = some routes ∧
        smapFind? routes "A" = some route ∧ routeTimeSum route ≠ r.totalTime := by
  refine ⟨⟨exStC, 7, [("A", 7)],
      some [("A", [⟨"A", "B", "StA", "StB", "Line1", 2⟩])]⟩, by decide,
    [("A", [⟨"A", "B", "StA", "StB", "Line1", 2⟩])],
    [⟨"A", "B", "StA", "StB", "Line1", 2⟩], rfl, rfl, by decide⟩

/-- Witness for the amended C2 theorem on the concrete three-station line. -/
theorem route_time_consistency_witness :
    GoodGraph exGraph3 ∧ noUnderscore "A" ∧
    exResultC ∈ searchReachableStations exGraph3 exMap3 "A" 30 ∧
    routeTimeSum exRouteC = exResultC.totalTime :=
  ⟨by decide, by decide, by decide,
    route_time_consistency exGraph3 exMap3 "A" 30 (by decide) (by decide)
      exResultC (by decide) [("A", exRouteC)] rfl exRouteC rfl⟩

theorem searchReachable_mem_of_SD (graph : StationGraph)
    (stationMap : SMap Station) (originCode : String) (maxTime : Nat)
    (s : String) (t : Nat) (station : Station)
    (hSD : (s, t) ∈ (searchLoop graph stationMap maxTime
      (searchFuel graph maxTime) (initialSearchState originCode)).stationDistances)
    (hsm : smapFind? stationMap s = some station) :
    ∃ r ∈ searchReachableStations graph stationMap originCode maxTime,
      r.station = station ∧ r.totalTime = t := by
  refine ⟨⟨station, t, [(originCode, t)],
      if (reconstructRoute stationMap
          (searchLoop graph stationMap maxTime (searchFuel graph maxTime)
            (initialSearchState originCode)) s).length > 0
      then some [(originCode, reconstructRoute stationMap
          (searchLoop graph stationMap maxTime (searchFuel graph maxTime)
            (initialSearchState originCode)) s)]
      else none⟩, ?_, rfl, rfl⟩
  simp only [searchReachableStations]
  rw [mem_sortResultsByTime, List.mem_filterMap]
  exact ⟨(s, t), hSD, by simp only [hsm]⟩

/-- Per-origin budget monotonicity on well-formed inputs: every station of
the budget-`t₁` result list reappears in the budget-`t₂` list when
`t₁ ≤ t₂`. -/
theorem searchReachable_monotone (graph : StationGraph)
    (stationMap : SMap Station) (originCode : String) (t₁ t₂ : Nat)
    (hg : GoodGraph graph) (ho : noUnderscore originCode) (hle : t₁ ≤ t₂)
    (r : SearchResult)
    (hr : r ∈ searchReachableStations graph stationMap originCode t₁) :
    ∃ r' ∈ searchReachableStations graph stationMap originCode t₂,
      r'.station = r.station := by
  obtain ⟨hfq₁, hinv₁⟩ := search_final graph stationMap t₁ originCode hg ho
  obtain ⟨hfq₂, hinv₂⟩ := search_final graph stationMap t₂ originCode hg ho
  simp only [searchReachableStations] at hr
  rw [mem_sortResultsByTime, List.mem_filterMap] at hr
  obtain ⟨p, hp, hfp⟩ := hr
  cases hsm : smapFind? stationMap p.1 with
  | none =>
    simp only [hsm] at hfp
    exact Option.noConfusion hfp
  | some station =>
    simp only [hsm] at hfp
    injection hfp with hfp
    have hSD₁ : smapFind? (searchLoop graph stationMap t₁ (searchFuel graph t₁)
        (initialSearchState originCode)).stationDistances p.1 = some p.2 :=
      smapFind?_of_mem_nodup _ p.1 p.2 hinv₁.1.ndSD hp
    obtain ⟨l, hB, hu, hl, hD⟩ := hinv₁.1.stationBest p.1 p.2 hSD₁
    obtain ⟨s', l', hkey, hsu, hlw, hwalk⟩ := hinv₁.1.walkD _ _ hD
    have hbound : p.2 ≤ t₁ :=
      hinv₁.1.leMax (mkStateKey p.1 l, p.2) (smapFind?_some_mem _ _ _ hD)
    obtain ⟨hss, hll⟩ := mkStateKey_inj p.1 s' l l' hu hsu hl hlw hkey
    obtain ⟨v, hv, hvle⟩ := final_complete graph stationMap t₂ originCode _
      hg ho hfq₂ hinv₂ s' l' p.2 hwalk (by omega)
    obtain ⟨t', ht', htle'⟩ := hinv₂.1.sdTracks _ _ hv s' l' rfl hsu hlw
    have hsm' : smapFind? stationMap s' = some station := by
      rw [← hss]
      exact hsm
    obtain ⟨r', hr', hstat, _⟩ := searchReachable_mem_of_SD graph stationMap
      originCode t₂ s' t' station (smapFind?_some_mem _ _ _ ht') hsm'
    refine ⟨r', hr', ?_⟩
    rw [hstat, ← hfp]

theorem mergeOriginResult_codes (graph : StationGraph)
    (stationMap : SMap Station) (origins : List String) (maxTime : Nat)
    (m : SMap SearchResult) (o : String) (result : SearchResult)
    (ho : o ∈ origins)
    (hres : result ∈ searchReachableStations graph stationMap o maxTime)
    (hnd : (smapKeys m).Nodup)
    (hgood : ∀ q ∈ m, q.2.station.code = q.1 ∧ ∃ o' ∈ origins,
      ∃ res ∈ searchReachableStations graph stationMap o' maxTime,
        res.station.code = q.1) :
    (smapKeys (mergeOriginResult m o result)).Nodup ∧
    ∀ q ∈ mergeOriginResult m o result, q.2.station.code = q.1 ∧ ∃ o' ∈ origins,
      ∃ res ∈ searchReachableStations graph stationMap o' maxTime,
        res.station.code = q.1 := by
  unfold mergeOriginResult
  cases hfind : smapFind? m result.station.code with
  | some existing =>
    refine ⟨smapKeys_set_nodup _ _ _ hnd, ?_⟩
    intro q hq
    rw [mem_smapSet_iff _ _ _ hnd] at hq
    rcases hq with hq | ⟨hq, _⟩
    · subst hq
      have hgex := hgood _ (smapFind?_some_mem _ _ _ hfind)
      exact ⟨by rw [mergeExisting_station]; exact hgex.1, hgex.2⟩
    · exact hgood q hq
  | none =>
    refine ⟨smapKeys_set_nodup _ _ _ hnd, ?_⟩
    intro q hq
    rw [mem_smapSet_iff _ _ _ hnd] at hq
    rcases hq with hq | ⟨hq, _⟩
    · subst hq
      exact ⟨rfl, o, ho, result, hres, rfl⟩
    · exact hgood q hq

theorem mergeOriginResult_keys_mono (m : SMap SearchResult) (o : String)
    (result : SearchResult) (c : String) (hc : c ∈ smapKeys m) :
    c ∈ smapKeys (mergeOriginResult m o result) := by
  unfold mergeOriginResult
  cases hfind : smapFind? m result.station.code with
  | some existing =>
    rw [smapKeys_set]
    by_cases hmem : result.station.code ∈ smapKeys m
    · rw [if_pos hmem]
      exact hc
    · rw [if_neg hmem]
      exact List.mem_append.mpr (Or.inl hc)
  | none =>
    rw [smapKeys_set]
    by_cases hmem : result.station.code ∈ smapKeys m
    · rw [if_pos hmem]
      exact hc
    · rw [if_neg hmem]
      exact List.mem_append.mpr (Or.inl hc)

theorem mergeOriginResult_key_self (m : SMap SearchResult) (o : String)
    (result : SearchResult) :
    result.station.code ∈ smapKeys (mergeOriginResult m o result) := by
  unfold mergeOriginResult
  cases hfind : smapFind? m result.station.code with
  | some existing =>
    rw [smapKeys_set]
    by_cases hmem : result.station.code ∈ smapKeys m
    · rw [if_pos hmem]
      exact hmem
    · rw [if_neg hmem]
      simp
  | none =>
    rw [smapKeys_set]
    by_cases hmem : result.station.code ∈ smapKeys m
    · rw [if_pos hmem]
      exact hmem
    · rw [if_neg hmem]
      simp

theorem fold_merge_keys_mono (o : String) :
    ∀ (rs : List SearchResult) (m : SMap SearchResult) (c : String),
      c ∈ smapKeys m →
      c ∈ smapKeys (rs.foldl (fun m r => mergeOriginResult m o r) m) := by
  intro rs
  induction rs with
  | nil =>
    intro m c hc
    exact hc
  | cons r rs ih =>
    intro m c hc
    exact ih _ c (mergeOriginResult_keys_mono m o r c hc)

theorem fold_merge_keys_self (o : String) :
    ∀ (rs : List SearchResult) (m : SMap SearchResult) (res : SearchResult),
      res ∈ rs →
      res.station.code ∈ smapKeys
        (rs.foldl (fun m r => mergeOriginResult m o r) m) := by
  intro rs
  induction rs with
  | nil =>
    intro m res h
    simp at h
  | cons r rs ih =>
    intro m res h
    rcases List.mem_cons.mp h with h | h
    · rw [h]
      exact fold_merge_keys_mono o rs _ _ (mergeOriginResult_key_self m o r)
    · exact ih _ res h

theorem outer_fold_keys_mono :
    ∀ (l : List (String × List SearchResult)) (m : SMap SearchResult)
      (c : String), c ∈ smapKeys m →
      c ∈ smapKeys (l.foldl (fun m p => p.2.foldl
        (fun m r => mergeOriginResult m p.1 r) m) m) := by
  intro l
  induction l with
  | nil =>
    intro m c hc
    exact hc
  | cons p l ih =>
    intro m c hc
    exact ih _ c (fold_merge_keys_mono p.1 p.2 m c hc)

theorem outer_fold_keys_self :
    ∀ (l : List (String × List SearchResult)) (m : SMap SearchResult)
      (o : String) (rs : List SearchResult) (res : SearchResult),
      (o, rs) ∈ l → res ∈ rs →
      res.station.code ∈ smapKeys (l.foldl (fun m p => p.2.foldl
        (fun m r => mergeOriginResult m p.1 r) m) m) := by
  intro l
  induction l with
  | nil =>
    intro m o rs res h _
    simp at h
  | cons p l ih =>
    intro m o rs res h hres
    rcases List.mem_cons.mp h with h | h
    · rw [← h]
      exact outer_fold_keys_mono l _ _ (fold_merge_keys_self o rs m res hres)
    · exact ih _ o rs res h hres

/-- C6 (amended): OR-mode budget monotonicity on well-formed inputs — for a
fixed graph whose edge targets are underscore-free with non-sentinel line
codes, a fixed station map and underscore-free origin set, every station of
the OR result at budget `t₁` is still present at any budget `t₂ ≥ t₁`. -/
theorem or_mode_monotone (graph : StationGraph) (stationMap : SMap Station)
    (origins : List String) (t₁ t₂ : Nat)
    (hg : GoodGraph graph) (ho : ∀ o ∈ origins, noUnderscore o) (hle : t₁ ≤ t₂)
    (r : SearchResult)
    (hr : r ∈ searchMultipleOriginsParallel graph stationMap origins t₁ .or) :
    ∃ r' ∈ searchMultipleOriginsParallel graph stationMap origins t₂ .or,
      r'.station.code = r.station.code := by
  by_cases hoe : origins = []
  · subst hoe
    simp [searchMultipleOriginsParallel] at hr
  simp only [searchMultipleOriginsParallel, if_neg hoe] at hr
  rw [mem_sortResultsByTime, List.mem_filter] at hr
  obtain ⟨hmem, hfilt⟩ := hr
  rw [List.mem_map] at hmem
  obtain ⟨q, hq, rfl⟩ := hmem
  have hInv₁ := foldl_preserve
    (P := fun (m : SMap SearchResult) =>
      (smapKeys m).Nodup ∧
      ∀ q ∈ m, q.2.station.code = q.1 ∧ ∃ o' ∈ origins,
        ∃ res ∈ searchReachableStations graph stationMap o' t₁,
          res.station.code = q.1)
    (fun m pr => pr.2.foldl (fun m res => mergeOriginResult m pr.1 res) m)
    (origins.zip (origins.map
      (fun o => searchReachableStations graph stationMap o t₁)))
    []
    (fun acc pr hpr hacc => by
      rw [zip_self_map, List.mem_map] at hpr
      obtain ⟨o, ho', rfl⟩ := hpr
      exact foldl_preserve
        (P := fun (m : SMap SearchResult) =>
          (smapKeys m).Nodup ∧
          ∀ q ∈ m, q.2.station.code = q.1 ∧ ∃ o' ∈ origins,
            ∃ res ∈ searchReachableStations graph stationMap o' t₁,
              res.station.code = q.1)
        _ _ acc
        (fun acc₂ res hres hacc₂ =>
          mergeOriginResult_codes graph stationMap origins t₁ acc₂ o res
            ho' hres hacc₂.1 hacc₂.2)
        hacc)
    ⟨List.nodup_nil, by simp⟩
  obtain ⟨hcode, o', ho'in, res, hresmem, hrescode⟩ := hInv₁.2 q hq
  obtain ⟨res', hres'mem, hres'stat⟩ := searchReachable_monotone graph
    stationMap o' t₁ t₂ hg (ho o' ho'in) hle res hresmem
  have hres'code : res'.station.code = q.1 := by
    rw [hres'stat]
    exact hrescode
  have hkey₂ : res'.station.code ∈ smapKeys
      ((origins.zip (origins.map
        (fun o => searchReachableStations graph stationMap o t₂))).foldl
        (fun m pr => pr.2.foldl (fun m res => mergeOriginResult m pr.1 res) m)
        []) :=
    outer_fold_keys_self _ [] o'
      (searchReachableStations graph stationMap o' t₂) res'
      (by rw [zip_self_map]
          exact List.mem_map.mpr ⟨o', ho'in, rfl⟩)
      hres'mem
  have hInv₂ := foldl_preserve
    (P := fun (m : SMap SearchResult) =>
      (smapKeys m).Nodup ∧
      ∀ q ∈ m, q.2.station.code = q.1 ∧ ∃ o' ∈ origins,
        ∃ res ∈ searchReachableStations graph stationMap o' t₂,
          res.station.code = q.1)
    (fun m pr => pr.2.foldl (fun m res => mergeOriginResult m pr.1 res) m)
    (origins.zip (origins.map
      (fun o => searchReachableStations graph stationMap o t₂)))
    []
    (fun acc pr hpr hacc => by
      rw [zip_self_map, List.mem_map] at hpr
      obtain ⟨o, ho'', rfl⟩ := hpr
      exact foldl_preserve
        (P := fun (m : SMap SearchResult) =>
          (smapKeys m).Nodup ∧
          ∀ q ∈ m, q.2.station.code = q.1 ∧ ∃ o' ∈ origins,
            ∃ res ∈ searchReachableStations graph stationMap o' t₂,
              res.station.code = q.1)
        _ _ acc
        (fun acc₂ res hres hacc₂ =>
          mergeOriginResult_codes graph stationMap origins t₂ acc₂ o res
            ho'' hres hacc₂.1 hacc₂.2)
        hacc)
    ⟨List.nodup_nil, by simp⟩
  unfold smapKeys at hkey₂
  obtain ⟨q', hq', hq'c⟩ := List.mem_map.mp hkey₂
  obtain ⟨hq'code, _⟩ := hInv₂.2 q' hq'
  have hq'station : q'.2.station.code = q.2.station.code := by
    rw [hq'code, hq'c, hres'code, ← hcode]
  refine ⟨q'.2, ?_, hq'station⟩
  simp only [searchMultipleOriginsParallel, if_neg hoe]
  rw [mem_sortResultsByTime, List.mem_filter]
  refine ⟨List.mem_map.mpr ⟨q', hq', rfl⟩, ?_⟩
  rw [hq'station]
  exact hfilt

/-- C6 counterexample: with a station code containing an underscore the state
keys of (station "S", line "x_L") and (station "S_x", line "L") collide into
"S_x_L"; an expensive edge queued only at the larger budget flips the pop
order of two equal-priority heap entries, so the colliding relaxation that
records station "S_x" is skipped at budget 30 though it is performed at
budget 10: "S_x" is in the OR result set for budget 10 but not for 30. -/
theorem or_mode_not_monotone :
    (∃ r ∈ searchMultipleOriginsParallel exTieGraph exTieMap ["O"] 10 .or,
      r.station.code = "S_x") ∧
    ¬ (∃ r ∈ searchMultipleOriginsParallel exTieGraph exTieMap ["O"] 30 .or,
      r.station.code = "S_x") := by
  constructor
  · decide
  · decide

/-- Witness for the amended C6 theorem on the three-station line. -/
theorem or_mode_monotone_witness :
    GoodGraph exGraph3 ∧ (10 : Nat) ≤ 30 ∧
    exResultB10 ∈ searchMultipleOriginsParallel exGraph3 exMap3 ["A"] 10 .or ∧
    ∃ r' ∈ searchMultipleOriginsParallel exGraph3 exMap3 ["A"] 30 .or,
      r'.station.code = exResultB10.station.code :=
  ⟨by decide, by decide, by decide,
    or_mode_monotone exGraph3 exMap3 ["A"] 10 30 (by decide) (by decide)
      (by decide) exResultB10 (by decide)⟩

end EkiKensaku
